import Mathlib

/-!
# prosefmt: text classification, scanning, reporting and the run loop

A shallow embedding of `internal/scanner/scanner.go`, `internal/report/report.go`
and `cmd/prosefmt/main.go`, followed by theorems about them.

Conventions of the embedding:
* a Go `byte` is a natural number below 256; nothing in the classifier does
  arithmetic on bytes, so the definitions are written over `Nat`;
* a Go `error` is a message string, a fallible call returns `Except Err _`;
* a Go `map[string]V` is an association list with unique keys (`mapSet` overwrites);
* the file system and the operations of packages whose code is elsewhere
  (`os`, `filepath`, `sort`, `rules`, `fix`) are parameters.
-/

namespace Prosefmt

/-! ## Basic types -/

/-- A Go byte. -/
abbrev Byte := Nat

/-- A Go error value, by its message. -/
abbrev Err := String

/-- A Go `map[string]V`, as an association list with unique keys. -/
abbrev GoMap (V : Type) := List (String × V)

/-- Reading `m[k]`: the value and whether the key is present. -/
def mapGet {V : Type} : GoMap V → String → Option V
  | [], _ => none
  | (k, v) :: rest, key => if k = key then some v else mapGet rest key

/-- The assignment `m[k] = v`: overwrites the value of a present key, adds an absent one. -/
def mapSet {V : Type} : GoMap V → String → V → GoMap V
  | [], key, val => [(key, val)]
  | (k, v) :: rest, key, val =>
    if k = key then (k, val) :: rest else (k, v) :: mapSet rest key val

/-- The keys of a map. -/
def mapKeys {V : Type} (m : GoMap V) : List String := m.map Prod.fst

/-! ## The file system seen by the scanner -/

/-- What `os.FileInfo` tells the scanner: `info.Mode().IsRegular()` and `info.IsDir()`. -/
structure FileInfo where
  IsRegular : Bool
  IsDir : Bool
deriving DecidableEq, Repr

/-- An opened file: its content, and the error (if any) that `Read` reports instead of data. -/
structure File where
  content : List Byte
  readErr : Option Err
deriving DecidableEq, Repr

/-- The error of a `Read`: none, `io.EOF`, or another error. -/
inductive ReadError where
  | none
  | EOF
  | other (e : Err)
deriving DecidableEq, Repr

/-- One `f.Read(buf)` from the start of the file with `len(buf) = len`: the bytes stored in
`buf[:n]` and the error. At end of file `Read` returns `0, io.EOF`. -/
def File.Read (f : File) (len : Nat) : List Byte × ReadError :=
  match f.readErr with
  | some e => ([], ReadError.other e)
  | Option.none =>
    let got := f.content.take len
    if got.length = 0 then (got, ReadError.EOF) else (got, ReadError.none)

/-- The file system calls `Scan` makes. `Walk root` is the sequence of callbacks
`filepath.Walk(root, fn)` makes as long as `fn` returns nil: the path, and the file info or the
error handed to `fn`. -/
structure FS where
  Stat : String → Except Err FileInfo
  Abs : String → String
  Open : String → Except Err File
  Walk : String → List (String × Except Err FileInfo)

/-! ## internal/scanner/scanner.go -/

def maxScanBytes : Nat := 32 * 1024

/-- The condition of the second `if` of the loop of `isTextFileWithReason`. -/
def isControlByte (b : Byte) : Bool :=
  decide (b ≤ 0x08) || b == 0x0B || b == 0x0C || (decide (b ≥ 0x0E) && decide (b ≤ 0x1F)) || b == 0x7F

/-- The loop `for _, b := range buf` of `isTextFileWithReason` and the return after it. -/
def scanBuf : List Byte → Bool × String
  | [] => (true, "")
  | b :: rest =>
    if b == 0 then (false, "null byte")
    else if isControlByte b then (false, "binary or control characters")
    else scanBuf rest

/-- The part of `isTextFileWithReason` after the read: `buf = buf[:n]`, the `n == 0` test and
the loop. The argument is the sample `buf[:n]`. -/
def classifySample (buf : List Byte) : Bool × String :=
  if buf.length = 0 then (true, "") else scanBuf buf

def isTextFileWithReason (fs : FS) (path : String) : Bool × String :=
  match fs.Open path with
  | .error _ => (false, "")
  | .ok f =>
    match f.Read maxScanBytes with
    | (_, ReadError.other _) => (false, "")
    | (buf, _) => classifySample buf

def isTextFile (fs : FS) (path : String) : Bool :=
  (isTextFileWithReason fs path).1

/-- The local variables of `Scan`: `out`, `skipped` and `seen` (as the list of its keys). -/
structure ScanState where
  out : List String
  skipped : GoMap String
  seen : List String
deriving DecidableEq, Repr

/-- The body shared by both branches of `Scan` for a regular file `p`: the `seen` test on the
absolute path, the classification, and the update of `out` or `skipped`. -/
def scanFile (fs : FS) (st : ScanState) (p : String) : ScanState :=
  let abs := fs.Abs p
  if abs ∈ st.seen then st
  else
    let st1 : ScanState := { st with seen := abs :: st.seen }
    match isTextFileWithReason fs p with
    | (true, _) => { st1 with out := st1.out ++ [p] }
    | (false, reason) =>
      if reason ≠ "" then { st1 with skipped := mapSet st1.skipped p reason } else st1

/-- The callback passed to `filepath.Walk`. -/
def walkFn (fs : FS) (st : ScanState) (entry : String × Except Err FileInfo) :
    Except Err ScanState :=
  match entry.2 with
  | .error e => .error e
  | .ok fi => if !fi.IsRegular then .ok st else .ok (scanFile fs st entry.1)

/-- The call `filepath.Walk(root, fn)`: the callbacks in order, stopped by the first error. -/
def walkDir (fs : FS) : ScanState → List (String × Except Err FileInfo) → Except Err ScanState
  | st, [] => .ok st
  | st, entry :: rest =>
    match walkFn fs st entry with
    | .error e => .error e
    | .ok st1 => walkDir fs st1 rest

/-- One iteration of `for _, root := range paths`. -/
def scanRoot (fs : FS) (st : ScanState) (root : String) : Except Err ScanState :=
  match fs.Stat root with
  | .error e => .error e
  | .ok info =>
    if info.IsRegular then .ok (scanFile fs st root)
    else if info.IsDir then walkDir fs st (fs.Walk root)
    else .ok st

/-- The loop of `Scan` from a given state. -/
def scanRoots (fs : FS) : ScanState → List String → Except Err ScanState
  | st, [] => .ok st
  | st, root :: rest =>
    match scanRoot fs st root with
    | .error e => .error e
    | .ok st1 => scanRoots fs st1 rest

def Scan (fs : FS) (paths : List String) : Except Err (List String × GoMap String) :=
  match scanRoots fs ⟨[], [], []⟩ paths with
  | .error e => .error e
  | .ok st => .ok (st.out, st.skipped)

/-! ## rules.Issue, sort.Slice, io.Writer -/

/-- The struct `rules.Issue`, with the fields `report.go` and its test use. -/
structure Issue where
  File : String
  Line : Int
  Column : Int
  RuleID : String
  Message : String
deriving DecidableEq, Repr

/-- What `sort.Slice` asks of its `less` function: a strict weak ordering. -/
structure StrictWeakOrder {α : Type} (less : α → α → Bool) : Prop where
  irrefl : ∀ a, less a a = false
  trans : ∀ a b c, less a b = true → less b c = true → less a c = true
  incomp_trans : ∀ a b c, less b a = false → less c b = false → less c a = false

/-- The library function `sort.Slice`, by its contract: the slice is rearranged (a permutation)
so that no element is less than an earlier one. The sort is not guaranteed to be stable, so the
order of elements that compare equal is left to the implementation. -/
structure SliceSorter where
  sort : {α : Type} → (α → α → Bool) → List α → List α
  perm : ∀ {α : Type} (less : α → α → Bool) (xs : List α), (sort less xs).Perm xs
  sorted : ∀ {α : Type} (less : α → α → Bool) (xs : List α), StrictWeakOrder less →
    (sort less xs).Pairwise (fun a b => less b a = false)

/-- The inner loop of a straight insertion sort, `for j := i; j > a && less(j, j-1); j--`
with a swap: `x` moves left past the elements it is less than. The sorted part `data[a:i]` is
given from right to left, and so is the result. -/
def insertLeft {α : Type} (less : α → α → Bool) (x : α) : List α → List α
  | [] => [x]
  | y :: ys => if less x y then y :: insertLeft less x ys else x :: y :: ys

/-- Straight insertion sort, the algorithm `sort.Slice` runs on a slice of fewer than
twelve elements. -/
def insertionSortLessFunc {α : Type} (less : α → α → Bool) (xs : List α) : List α :=
  (xs.foldl (fun sortedRev x => insertLeft less x sortedRev) []).reverse

/-- Go's `a < b` on strings: the lexicographic order of the character sequences (Go compares
byte by byte, which on UTF-8 text is the order of the code points). -/
def strLess (a b : String) : Bool := decide (a.toList < b.toList)

/-- The library function `sort.Strings`: increasing order. The order on strings is total, so
the result does not depend on the algorithm. -/
def sortStrings (l : List String) : List String :=
  l.insertionSort (fun a b => strLess b a = false)

/-- The order in which `range` visits the keys of a map: some permutation of the keys,
chosen by the runtime. -/
structure MapRange where
  order : List String → List String
  perm : ∀ keys, (order keys).Perm keys

/-- An `io.Writer`: the text accepted so far, and the error (if any) with which it refuses a
further chunk, given the text so far and the chunk. -/
structure Writer where
  written : String
  failure : String → String → Option Err

/-- One `fmt.Fprintf`/`fmt.Fprintln` of the formatted text `s` to the writer: the writer
afterwards and the error. -/
def Writer.Fprint (w : Writer) (s : String) : Writer × Option Err :=
  match w.failure w.written s with
  | some e => (w, some e)
  | none => ({ w with written := w.written ++ s }, none)

/-- A `bytes.Buffer` holding `s`: it accepts every write. -/
def bufferWriter (s : String) : Writer := ⟨s, fun _ _ => none⟩

/-! ## internal/report/report.go -/

/-- The `less` closure of `writeCompact`, on the elements themselves. -/
def issueLess (a b : Issue) : Bool :=
  if a.File ≠ b.File then strLess a.File b.File
  else if a.RuleID ≠ b.RuleID then strLess a.RuleID b.RuleID
  else if a.Line ≠ b.Line then decide (a.Line < b.Line)
  else decide (a.Column < b.Column)

/-- The text of `fmt.Fprintf(w, "%s:%d:%d: %s: %s\n", i.File, i.Line, i.Column, i.RuleID,
i.Message)`. -/
def formatIssue (i : Issue) : String :=
  i.File ++ ":" ++ toString i.Line ++ ":" ++ toString i.Column ++ ": " ++ i.RuleID ++ ": " ++
    i.Message ++ "\n"

/-- The loop `for _, i := range issues` of `writeCompact`. -/
def writeIssues (w : Writer) : List Issue → Writer × Option Err
  | [] => (w, none)
  | i :: rest =>
    match w.Fprint (formatIssue i) with
    | (w1, some e) => (w1, some e)
    | (w1, none) => writeIssues w1 rest

def fileSet (issues : List Issue) : GoMap Bool :=
  issues.foldl (fun m i => mapSet m i.File true) []

/-- The text of the summary line of `writeCompact`, for the sorted issues. -/
def summaryLine (issues : List Issue) (filesScanned : Int) : String :=
  if filesScanned ≥ 0 then
    toString filesScanned ++ " file(s) scanned, " ++ toString issues.length ++ " issue(s).\n"
  else
    toString (fileSet issues).length ++ " file(s), " ++ toString issues.length ++ " issue(s).\n"

def writeCompact (S : SliceSorter) (w : Writer) (issues : List Issue) (filesScanned : Int) :
    Writer × Option Err :=
  let issues := S.sort issueLess issues
  match writeIssues w issues with
  | (w1, some e) => (w1, some e)
  | (w1, none) => w1.Fprint (summaryLine issues filesScanned)

/-- The type `report.Format`. -/
abbrev Format := String

def FormatCompact : Format := "compact"

def Write (S : SliceSorter) (w : Writer) (_format : Format) (issues : List Issue)
    (filesScanned : Int) (_files : List String) : Writer × Option Err :=
  writeCompact S w issues filesScanned

/-! ## package log, and the world `run` acts on -/

/-- Modelled from the spec: the verbosity levels of package `log`, whose declarations are not
among the sources; `run` compares them with `>=`, silent below normal below verbose. -/
inductive Level where
  | Silent
  | Normal
  | Verbose
deriving DecidableEq, Repr

def Level.rank : Level → Nat
  | .Silent => 0
  | .Normal => 1
  | .Verbose => 2

/-- The comparison `a >= b` of two levels. -/
def Level.ge (a b : Level) : Bool := decide (a.rank ≥ b.rank)

/-- What `run` acts on: standard output, the lines logged to standard error, and the calls
made so far to `rules.CheckFile` and to `fix.Apply`, in order. -/
structure World where
  stdout : Writer
  stderr : List String
  checked : List String
  fixed : List String

/-- Modelled from the spec: `log.Logf(level, ...)` of package `log`, which writes the formatted
text to its output when the current level `cur` is at least `level` (`log_test.go`). -/
def Logf (w : World) (cur level : Level) (s : String) : World :=
  if cur.ge level then { w with stderr := w.stderr ++ [s] } else w

/-- The operations `run` is given: the library sort and map iteration, the scanner, the rule
check of one file, the fix of one file, the text of the elapsed time and the help text. -/
structure Ops where
  sorter : SliceSorter
  range : MapRange
  Scan : List String → Except Err (List String × GoMap String)
  CheckFile : String → Except Err (List Issue)
  Apply : String → Option Err
  elapsed : String
  help : String

/-! ## cmd/prosefmt/main.go -/

/-- The verb `%v` on a bool. -/
def fmtBool (b : Bool) : String := if b then "true" else "false"

/-- The verb `%v` on a slice of strings. -/
def fmtStrings (l : List String) : String := "[" ++ " ".intercalate l ++ "]"

def sortedKeys (R : MapRange) (m : GoMap String) : List String :=
  sortStrings (R.order (mapKeys m))

/-- The verbose block of `run` after the scan (lines 162-174). -/
def logScanned (R : MapRange) (lvl : Level) (w : World) (files : List String)
    (skipped : GoMap String) : World :=
  let w1 :=
    if files.length = 0 then
      Logf w lvl .Verbose ("No text files found. Scanned 0 text file(s), skipped " ++
        toString skipped.length ++ " path(s).\n")
    else
      Logf w lvl .Verbose ("Scanned " ++ toString files.length ++ " text file(s), skipped " ++
        toString skipped.length ++ " path(s).\n")
  let w2 := (sortedKeys R skipped).foldl (fun acc p =>
    Logf acc lvl .Verbose ("scanner: rejected " ++ p ++ " (reason: " ++
      (mapGet skipped p).getD "" ++ ")\n")) w1
  files.foldl (fun acc p => Logf acc lvl .Verbose ("scanner: accepted " ++ p ++ "\n")) w2

/-- The local variables of the check loop of `run`, with the world. -/
structure CheckState where
  world : World
  allIssues : List Issue
  fileIssues : GoMap (List Issue)

/-- The map `ruleIDs` built in the verbose branch of the check loop. -/
def ruleIDsOf (issues : List Issue) : GoMap Bool :=
  issues.foldl (fun m i => mapSet m i.RuleID true) []

/-- One iteration of `for _, path := range files` in `run`. -/
def checkOne (ops : Ops) (lvl : Level) (check : Bool) (st : CheckState) (path : String) :
    CheckState × Option Err :=
  let w1 :=
    if lvl.ge .Verbose then
      if check then Logf st.world lvl .Verbose ("Checking " ++ path ++ "\n")
      else Logf st.world lvl .Verbose ("Writing " ++ path ++ "\n")
    else st.world
  let w2 : World := { w1 with checked := w1.checked ++ [path] }
  match ops.CheckFile path with
  | .error e => ({ st with world := w2 }, some e)
  | .ok issues =>
    if issues.length > 0 then
      let fileIssues := mapSet st.fileIssues path issues
      let allIssues := st.allIssues ++ issues
      let w3 :=
        if lvl.ge .Verbose then
          let ids := sortStrings (ops.range.order (mapKeys (ruleIDsOf issues)))
          Logf w2 lvl .Verbose ("rules: " ++ path ++ " -> " ++ toString issues.length ++
            " issue(s): " ++ ", ".intercalate ids ++ "\n")
        else w2
      (⟨w3, allIssues, fileIssues⟩, none)
    else ({ st with world := w2 }, none)

/-- The loop `for _, path := range files` of `run`. -/
def checkFiles (ops : Ops) (lvl : Level) (check : Bool) :
    CheckState → List String → CheckState × Option Err
  | st, [] => (st, none)
  | st, path :: rest =>
    match checkOne ops lvl check st path with
    | (st1, some e) => (st1, some e)
    | (st1, none) => checkFiles ops lvl check st1 rest

/-- The loop `for path := range fileIssues` of `run`, over the keys in the order of the range. -/
def applyFixes (ops : Ops) (lvl : Level) : World → List String → World × Option Err
  | w, [] => (w, none)
  | w, path :: rest =>
    let w1 : World := { w with fixed := w.fixed ++ [path] }
    match ops.Apply path with
    | some e => (w1, some e)
    | none =>
      let w2 :=
        if lvl.ge .Verbose then Logf w1 lvl .Verbose ("write: applied to " ++ path ++ "\n")
        else w1
      applyFixes ops lvl w2 rest

/-- The listing of the written files (lines 237-245 of `run`); the errors of the prints are
not looked at. -/
def printWrote (R : MapRange) (so : Writer) (fileIssues : GoMap (List Issue)) : Writer :=
  let paths := sortStrings (R.order (mapKeys fileIssues))
  let so1 := (so.Fprint ("Wrote " ++ toString paths.length ++ " file(s):\n")).1
  paths.foldl (fun acc p => (acc.Fprint (p ++ "\n")).1) so1

/-- What `run` returns, with the world it leaves. -/
structure RunResult where
  world : World
  hadIssues : Bool
  err : Option Err

/-- The function `run`; `lvl` is `log.GetLevel()`. The parameter `doWrite` is not used by the
body: the mode is decided by `check` alone. -/
def run (ops : Ops) (lvl : Level) (check _doWrite : Bool) (paths : List String) (w : World) :
    RunResult :=
  let w1 :=
    if lvl.ge .Verbose then
      Logf w lvl .Verbose ("Configuration: check=" ++ fmtBool check ++ " paths=" ++
        fmtStrings paths ++ "\n")
    else w
  match ops.Scan paths with
  | .error e => ⟨w1, false, some e⟩
  | .ok (files, skipped) =>
    let w2 := if lvl.ge .Verbose then logScanned ops.range lvl w1 files skipped else w1
    if files.length = 0 then
      if lvl.ge .Normal then
        let so1 := (w2.stdout.Fprint "No text files found.\n").1
        let so2 := if check then (Write ops.sorter so1 FormatCompact [] 0 []).1 else so1
        ⟨{ w2 with stdout := so2 }, false, none⟩
      else ⟨w2, false, none⟩
    else
      match checkFiles ops lvl check ⟨w2, [], []⟩ files with
      | (st, some e) => ⟨st.world, false, some e⟩
      | (st, none) =>
        if check then
          let written :=
            if lvl.ge .Normal then
              Write ops.sorter st.world.stdout FormatCompact st.allIssues files.length files
            else (st.world.stdout, none)
          match written with
          | (so, some e) => ⟨{ st.world with stdout := so }, false, some e⟩
          | (so, none) =>
            let w4 : World := { st.world with stdout := so }
            let w5 :=
              if lvl.ge .Verbose then
                Logf w4 lvl .Verbose ("Completed in " ++ ops.elapsed ++ "\n")
              else w4
            ⟨w5, decide (st.allIssues.length > 0), none⟩
        else
          match applyFixes ops lvl st.world (ops.range.order (mapKeys st.fileIssues)) with
          | (w4, some e) => ⟨w4, false, some e⟩
          | (w4, none) =>
            let w5 : World :=
              if lvl.ge .Normal && decide (st.fileIssues.length > 0) then
                { w4 with stdout := printWrote ops.range w4.stdout st.fileIssues }
              else w4
            let w6 :=
              if lvl.ge .Verbose then
                Logf w5 lvl .Verbose ("Completed in " ++ ops.elapsed ++ "\n")
              else w5
            ⟨w6, false, none⟩

/-- The flag variables of `main.go`, as parsed from the command line. -/
structure Flags where
  checkFlag : Bool
  writeFlag : Bool
  silentFlag : Bool
  compactFlag : Bool
  verboseFlag : Bool

def verbosityLevel (f : Flags) : Level :=
  if f.silentFlag then .Silent
  else if f.verboseFlag then .Verbose
  else if f.compactFlag then .Normal
  else .Normal

/-- What `runE` leaves: the world, the variable `checkHadIssues`, and the error it returns. -/
structure RunEResult where
  world : World
  checkHadIssues : Bool
  err : Option Err

/-- The function `runE` on the parsed flags and the arguments; `checkHadIssues` starts false.
The help goes to the error output of the command. -/
def runE (ops : Ops) (f : Flags) (args : List String) (w : World) : RunEResult :=
  if args.length = 0 then ⟨{ w with stderr := w.stderr ++ [ops.help] }, false, none⟩
  else if f.checkFlag && f.writeFlag then ⟨w, false, some "cannot use both --check and --write"⟩
  else
    let checkFlag := if !f.checkFlag && !f.writeFlag then true else f.checkFlag
    let r := run ops (verbosityLevel f) checkFlag f.writeFlag args w
    match r.err with
    | some e => ⟨r.world, false, some e⟩
    | none => ⟨r.world, checkFlag && r.hadIssues, none⟩

/-- The function `Execute`: the world at exit and the exit status of the process. -/
def Execute (ops : Ops) (f : Flags) (args : List String) (w : World) : World × Nat :=
  let r := runE ops f args w
  match r.err with
  | some e => ({ r.world with stderr := r.world.stderr ++ [e ++ "\n"] }, 1)
  | none => if r.checkHadIssues then (r.world, 1) else (r.world, 0)

/-! ## Definitions used to state the properties -/

/-- The bytes outside the allow-set that the specification lists:
0x00-0x08, 0x0B, 0x0C, 0x0E-0x1F, 0x7F. -/
def nonTextBytes : List Byte :=
  [0x00, 0x01, 0x02, 0x03, 0x04, 0x05, 0x06, 0x07, 0x08, 0x0B, 0x0C,
   0x0E, 0x0F, 0x10, 0x11, 0x12, 0x13, 0x14, 0x15, 0x16, 0x17, 0x18, 0x19, 0x1A, 0x1B, 0x1C,
   0x1D, 0x1E, 0x1F, 0x7F]

/-- A file system with one regular file `path` of the given content. -/
def singleFileFS (path : String) (content : List Byte) : FS where
  Stat := fun p => if p = path then .ok ⟨true, false⟩ else .error "no such file or directory"
  Abs := fun p => p
  Open := fun p => if p = path then .ok ⟨content, none⟩ else .error "no such file or directory"
  Walk := fun _ => []

/-- Straight insertion sort meets the contract of `sort.Slice`. -/
def insertionSorter : SliceSorter where
  sort := fun less xs => insertionSortLessFunc less xs
  perm := by
    intro α less xs
    have hins : ∀ (x : α) (l : List α), (insertLeft less x l).Perm (x :: l) := by
      intro x l
      induction l with
      | nil => exact List.Perm.refl _
      | cons y ys ih =>
        by_cases h : less x y = true
        · simp only [insertLeft, h, if_true]
          exact (List.Perm.cons y ih).trans (List.Perm.swap x y ys)
        · have h2 : less x y = false := by simpa using h
          simp only [insertLeft, h2, Bool.false_eq_true, if_false]
          exact List.Perm.refl _
    have hfold : ∀ (ys acc : List α),
        (ys.foldl (fun r x => insertLeft less x r) acc).Perm (ys ++ acc) := by
      intro ys
      induction ys with
      | nil => intro acc; exact List.Perm.refl _
      | cons y rest ih =>
        intro acc
        rw [List.foldl_cons]
        refine (ih _).trans ?_
        refine (List.Perm.append_left rest (hins y acc)).trans ?_
        exact List.perm_middle
    have := hfold xs []
    rw [List.append_nil] at this
    exact (List.reverse_perm _).trans this
  sorted := by
    intro α less xs hless
    have hmem : ∀ (x z : α) (l : List α), z ∈ insertLeft less x l → z = x ∨ z ∈ l := by
      intro x z l
      induction l with
      | nil => intro h; simpa [insertLeft] using h
      | cons y ys ih =>
        intro h
        by_cases hxy : less x y = true
        · simp only [insertLeft, hxy, if_true, List.mem_cons] at h
          rcases h with h | h
          · exact Or.inr (List.mem_cons.mpr (Or.inl h))
          · rcases ih h with h1 | h1
            · exact Or.inl h1
            · exact Or.inr (List.mem_cons_of_mem _ h1)
        · have hxy2 : less x y = false := by simpa using hxy
          simp only [insertLeft, hxy2, Bool.false_eq_true, if_false, List.mem_cons] at h
          rcases h with h | h | h
          · exact Or.inl h
          · exact Or.inr (List.mem_cons.mpr (Or.inl h))
          · exact Or.inr (List.mem_cons_of_mem _ h)
    have hins : ∀ (x : α) (l : List α), l.Pairwise (fun a b => less a b = false) →
        (insertLeft less x l).Pairwise (fun a b => less a b = false) := by
      intro x l
      induction l with
      | nil => intro _; simp [insertLeft]
      | cons y ys ih =>
        intro hl
        rw [List.pairwise_cons] at hl
        by_cases hxy : less x y = true
        · simp only [insertLeft, hxy, if_true]
          rw [List.pairwise_cons]
          refine ⟨?_, ih hl.2⟩
          intro z hz
          rcases hmem x z ys hz with h | h
          · subst h
            cases hyx : less y z with
            | false => rfl
            | true =>
              have := hless.trans _ _ _ hxy hyx
              rw [hless.irrefl] at this
              exact Bool.noConfusion this
          · exact hl.1 z h
        · have hxy2 : less x y = false := by simpa using hxy
          simp only [insertLeft, hxy2, Bool.false_eq_true, if_false]
          rw [List.pairwise_cons]
          refine ⟨?_, List.pairwise_cons.mpr hl⟩
          intro z hz
          rcases List.mem_cons.mp hz with h | h
          · rw [h]; exact hxy2
          · exact hless.incomp_trans z y x (hl.1 z h) hxy2
    have hfold : ∀ (ys acc : List α), acc.Pairwise (fun a b => less a b = false) →
        (ys.foldl (fun r x => insertLeft less x r) acc).Pairwise
          (fun a b => less a b = false) := by
      intro ys
      induction ys with
      | nil => intro acc h; exact h
      | cons y rest ih =>
        intro acc h
        rw [List.foldl_cons]
        exact ih _ (hins y acc h)
    show (insertionSortLessFunc less xs).Pairwise (fun a b => less b a = false)
    unfold insertionSortLessFunc
    rw [List.pairwise_reverse]
    exact hfold xs [] List.Pairwise.nil

/-- The order the specification gives for the report: lexicographic on
(File, RuleID, Line, Column), strings compared as strings and numbers as integers. -/
def keyLe (a b : Issue) : Prop :=
  a.File < b.File ∨ a.File = b.File ∧
    (a.RuleID < b.RuleID ∨ a.RuleID = b.RuleID ∧
      (a.Line < b.Line ∨ a.Line = b.Line ∧ a.Column ≤ b.Column))

/-- The sort key of an issue in the lexicographic product order. -/
def issueKey (i : Issue) : String ×ₗ String ×ₗ Int ×ₗ Int :=
  toLex (i.File, toLex (i.RuleID, toLex (i.Line, i.Column)))

/-- The concatenation of the chunks written one after the other. -/
def joinLines : List String → String
  | [] => ""
  | s :: rest => s ++ joinLines rest

/-- A writer that accepts every chunk. -/
def Writer.neverFails (w : Writer) : Prop := ∀ a b, w.failure a b = none

/-- A path is unreadable when `os.Open` fails on it or the `Read` of the opened file fails. -/
def unreadable (fs : FS) (path : String) : Bool :=
  match fs.Open path with
  | .error _ => true
  | .ok f => f.readErr.isSome

/-- Every callback of a walk gets a file info, none an error (neither that of an entry that
cannot be lstat'ed nor that of a directory that cannot be read). -/
def walkOK (entries : List (String × Except Err FileInfo)) : Bool :=
  entries.all (fun entry =>
    match entry.2 with
    | .ok _ => true
    | .error _ => false)

/-- No call of `Scan` on these paths meets an error it returns: `os.Stat` succeeds on every
listed path, and the walk of every listed directory hands no error to its callback, that is,
every entry under it can be lstat'ed and every directory under it can be read. -/
def traversable (fs : FS) (paths : List String) : Bool :=
  paths.all (fun root =>
    match fs.Stat root with
    | .error _ => false
    | .ok info => info.IsRegular || !info.IsDir || walkOK (fs.Walk root))

/-- Two states of `Scan` with the same accepted list and rejected map, whose `seen` sets agree
except possibly on the absolute path `a`. -/
def SameExceptSeen (a : String) (st st2 : ScanState) : Prop :=
  st.out = st2.out ∧ st.skipped = st2.skipped ∧ ∀ x, x ≠ a → (x ∈ st.seen ↔ x ∈ st2.seen)

/-- A directory `dir` holding the text file `dir/a.txt` and an entry `dir/gone` that the walk
cannot stat. -/
def walkErrorFS : FS where
  Stat := fun p => if p = "dir" then .ok ⟨false, true⟩ else .error "no such file or directory"
  Abs := fun p => p
  Open := fun p => if p = "dir/a.txt" then .ok ⟨[0x61, 0x0A], none⟩ else .error "permission denied"
  Walk := fun p =>
    if p = "dir" then
      [("dir", .ok ⟨false, true⟩), ("dir/a.txt", .ok ⟨true, false⟩),
       ("dir/gone", .error "lstat dir/gone: no such file or directory")]
    else []

/-- A directory `dir` that can be stat'ed but not read: the walk calls its callback on `dir`
with the file info, then again on `dir` with the error of reading it. -/
def unreadableDirFS : FS where
  Stat := fun p => if p = "dir" then .ok ⟨false, true⟩ else .error "no such file or directory"
  Abs := fun p => p
  Open := fun _ => .error "permission denied"
  Walk := fun p =>
    if p = "dir" then
      [("dir", .ok ⟨false, true⟩), ("dir", .error "open dir: permission denied")]
    else []

/-- Two regular files: the text file `a.txt`, and `locked.txt`, which cannot be opened. -/
def lockedFS : FS where
  Stat := fun p =>
    if p = "a.txt" ∨ p = "locked.txt" then .ok ⟨true, false⟩
    else .error "no such file or directory"
  Abs := fun p => p
  Open := fun p => if p = "a.txt" then .ok ⟨[0x61, 0x0A], none⟩ else .error "permission denied"
  Walk := fun _ => []

/-- The issues `rules.CheckFile` reports for a file (none when it fails). -/
def issuesOf (ops : Ops) (path : String) : List Issue :=
  match ops.CheckFile path with
  | .ok issues => issues
  | .error _ => []

/-- Operations for examples: insertion sort, maps ranged in the order of insertion, the
scanner on the file system `fs`, a given rule check, and a fix that succeeds. -/
def exampleOps (fs : FS) (check : String → Except Err (List Issue)) : Ops where
  sorter := insertionSorter
  range := ⟨fun keys => keys, fun _ => List.Perm.refl _⟩
  Scan := Scan fs
  CheckFile := check
  Apply := fun _ => none
  elapsed := "1ms"
  help := "usage"

/-- A world with nothing written, logged, checked or fixed yet; standard output takes
every write. -/
def emptyWorld : World := ⟨bufferWriter "", [], [], []⟩

/-- The rule check of the scenario `x`, two spaces, newline: one trailing-whitespace issue for
`bad.txt`, none for any other file. -/
def exampleCheck (path : String) : Except Err (List Issue) :=
  if path = "bad.txt" then .ok [⟨"bad.txt", 1, 2, "TL010", "no trailing spaces"⟩] else .ok []

/-- The accepted files for which the rule check reports at least one issue, each once. -/
def filesWithIssues (ops : Ops) (files : List String) : List String :=
  (files.filter (fun f => !(issuesOf ops f).isEmpty)).dedup

/-- Four regular files: `b.txt` and `a.txt` with trailing spaces, the clean `ok.txt`, and
`bin.bin`, which holds a 0x00 byte. -/
def fixFS : FS where
  Stat := fun p =>
    if p = "b.txt" ∨ p = "a.txt" ∨ p = "ok.txt" ∨ p = "bin.bin" then .ok ⟨true, false⟩
    else .error "no such file or directory"
  Abs := fun p => p
  Open := fun p =>
    if p = "b.txt" then .ok ⟨[0x78, 0x20, 0x20, 0x0A], none⟩
    else if p = "a.txt" then .ok ⟨[0x79, 0x20, 0x0A], none⟩
    else if p = "ok.txt" then .ok ⟨[0x61, 0x0A], none⟩
    else if p = "bin.bin" then .ok ⟨[0x78, 0x00, 0x79], none⟩
    else .error "no such file or directory"
  Walk := fun _ => []

/-- The rule check on the files of `fixFS`: one trailing-whitespace issue each for `b.txt` and
`a.txt`, none for any other file. -/
def fixCheck (path : String) : Except Err (List Issue) :=
  if path = "b.txt" then .ok [⟨"b.txt", 1, 2, "TL010", "no trailing spaces"⟩]
  else if path = "a.txt" then .ok [⟨"a.txt", 1, 2, "TL010", "no trailing spaces"⟩]
  else .ok []

/-- The regular files a callback sequence of `filepath.Walk` hands to the classifier. -/
def walkFiles (entries : List (String × Except Err FileInfo)) : List String :=
  entries.filterMap (fun entry =>
    match entry.2 with
    | .ok fi => if fi.IsRegular then some entry.1 else none
    | .error _ => none)

/-- The regular files one root contributes: itself, or those found under the directory. -/
def rootFiles (fs : FS) (root : String) : List String :=
  match fs.Stat root with
  | .ok info =>
    if info.IsRegular then [root]
    else if info.IsDir then walkFiles (fs.Walk root)
    else []
  | .error _ => []

/-- The regular files `Scan` reaches, in order, when no call fails. -/
def reached (fs : FS) (paths : List String) : List String :=
  (paths.map (rootFiles fs)).flatten

/-! ## The classifier -/

theorem isControlByte_iff (b : Byte) : isControlByte b = true ↔ b ∈ nonTextBytes := by
  unfold Byte at b
  simp only [isControlByte, nonTextBytes, Bool.or_eq_true, Bool.and_eq_true, decide_eq_true_eq,
    beq_iff_eq, List.mem_cons, List.mem_singleton, List.not_mem_nil, or_false]
  unfold Byte
  omega

theorem isControlByte_zero : isControlByte 0 = true := by decide

theorem scanBuf_accept_iff (buf : List Byte) :
    scanBuf buf = (true, "") ↔ ∀ b ∈ buf, isControlByte b = false := by
  induction buf with
  | nil => simp [scanBuf]
  | cons b rest ih =>
    by_cases h0 : b = 0
    · subst h0
      simp [scanBuf, isControlByte_zero]
    · by_cases hc : isControlByte b = true
      · simp [scanBuf, h0, hc]
      · simp [scanBuf, h0, hc, ih]

theorem scanBuf_fst_iff (buf : List Byte) :
    (scanBuf buf).1 = true ↔ scanBuf buf = (true, "") := by
  induction buf with
  | nil => simp [scanBuf]
  | cons b rest ih =>
    by_cases h0 : b = 0
    · simp [scanBuf, h0]
    · by_cases hc : isControlByte b = true
      · simp [scanBuf, h0, hc]
      · simpa [scanBuf, h0, hc] using ih

theorem scanBuf_null_first (pre post : List Byte)
    (hpre : ∀ b ∈ pre, isControlByte b = false) :
    scanBuf (pre ++ 0 :: post) = (false, "null byte") := by
  induction pre with
  | nil => simp [scanBuf]
  | cons b rest ih =>
    have hb : isControlByte b = false := hpre b (List.mem_cons_self _ _)
    have h0 : b ≠ 0 := by
      intro h
      rw [h, isControlByte_zero] at hb
      exact Bool.noConfusion hb
    have := ih (fun c hc => hpre c (List.mem_cons_of_mem _ hc))
    simp [scanBuf, h0, hb, this]

theorem scanBuf_control (buf : List Byte) (hnull : (0 : Byte) ∉ buf)
    (hctl : ∃ b ∈ buf, isControlByte b = true) :
    scanBuf buf = (false, "binary or control characters") := by
  induction buf with
  | nil => simp at hctl
  | cons b rest ih =>
    have h0 : b ≠ 0 := fun h => hnull (h ▸ List.mem_cons_self _ _)
    by_cases hc : isControlByte b = true
    · simp [scanBuf, h0, hc]
    · have hrest : ∃ c ∈ rest, isControlByte c = true := by
        obtain ⟨c, hcm, hcc⟩ := hctl
        rcases List.mem_cons.mp hcm with h | h
        · exact absurd (h ▸ hcc) hc
        · exact ⟨c, h, hcc⟩
      have := ih (fun h => hnull (List.mem_cons_of_mem _ h)) hrest
      simp [scanBuf, h0, hc, this]

theorem classifySample_eq_scanBuf (buf : List Byte) : classifySample buf = scanBuf buf := by
  cases buf with
  | nil => simp [classifySample, scanBuf]
  | cons b rest => simp [classifySample]

/-- On a file that opens and reads, the classifier is the loop over the first `maxScanBytes`
bytes of the content. -/
theorem isTextFileWithReason_of_open (fs : FS) (path : String) (S : List Byte)
    (hopen : fs.Open path = .ok ⟨S, none⟩) :
    isTextFileWithReason fs path = scanBuf (S.take maxScanBytes) := by
  unfold isTextFileWithReason
  rw [hopen]
  simp only [File.Read]
  split_ifs <;> simp [classifySample_eq_scanBuf]

/-! ## Maps -/

theorem mapGet_mapSet_self {V : Type} (m : GoMap V) (k : String) (v : V) :
    mapGet (mapSet m k v) k = some v := by
  induction m with
  | nil => simp [mapSet, mapGet]
  | cons kv rest ih =>
    obtain ⟨k1, v1⟩ := kv
    by_cases h : k1 = k
    · simp [mapSet, mapGet, h]
    · simp [mapSet, mapGet, h, ih]

theorem mapGet_mapSet_ne {V : Type} (m : GoMap V) (k k2 : String) (v : V) (hne : k ≠ k2) :
    mapGet (mapSet m k v) k2 = mapGet m k2 := by
  induction m with
  | nil => simp [mapSet, mapGet, hne]
  | cons kv rest ih =>
    obtain ⟨k1, v1⟩ := kv
    by_cases h : k1 = k
    · subst h
      simp [mapSet, mapGet, hne]
    · by_cases h2 : k1 = k2
      · subst h2
        simp [mapSet, mapGet, h]
      · simp [mapSet, mapGet, h, h2, ih]

/-! ## Scan as a fold over the reached files -/

theorem walkDir_ok (fs : FS) (entries : List (String × Except Err FileInfo)) :
    ∀ (st st1 : ScanState), walkDir fs st entries = .ok st1 →
      st1 = (walkFiles entries).foldl (scanFile fs) st := by
  induction entries with
  | nil =>
    intro st st1 h
    simp only [walkDir, Except.ok.injEq] at h
    simp [walkFiles, h]
  | cons entry rest ih =>
    intro st st1 h
    obtain ⟨p, r⟩ := entry
    cases r with
    | error e => simp [walkDir, walkFn] at h
    | ok fi =>
      by_cases hreg : fi.IsRegular = true
      · simp only [walkDir, walkFn, hreg, Bool.not_true, Bool.false_eq_true, if_false] at h
        have := ih _ _ h
        simp only [walkFiles] at this
        simp [walkFiles, List.filterMap_cons, hreg, this]
      · simp only [walkDir, walkFn, hreg, Bool.not_eq_true, Bool.not_false,
          if_true] at h
        have := ih _ _ h
        simp only [walkFiles] at this
        simp [walkFiles, List.filterMap_cons, hreg, this]

theorem scanRoot_ok (fs : FS) (st st1 : ScanState) (root : String)
    (h : scanRoot fs st root = .ok st1) :
    st1 = (rootFiles fs root).foldl (scanFile fs) st := by
  unfold scanRoot at h
  unfold rootFiles
  cases hs : fs.Stat root with
  | error e => simp [hs] at h
  | ok info =>
    rw [hs] at h
    simp only at h ⊢
    by_cases hreg : info.IsRegular = true
    · simp only [hreg, if_true, Except.ok.injEq] at h
      simp [hreg, h]
    · by_cases hdir : info.IsDir = true
      · simp only [hreg, hdir, if_true, if_false] at h
        simpa [hreg, hdir] using walkDir_ok fs _ _ _ h
      · simp only [hreg, hdir, if_false, Bool.false_eq_true, Except.ok.injEq] at h
        simp [hreg, hdir, h]

theorem scanRoots_ok (fs : FS) (paths : List String) :
    ∀ (st st1 : ScanState), scanRoots fs st paths = .ok st1 →
      st1 = (reached fs paths).foldl (scanFile fs) st := by
  induction paths with
  | nil =>
    intro st st1 h
    simp only [scanRoots, Except.ok.injEq] at h
    simp [reached, h]
  | cons root rest ih =>
    intro st st1 h
    simp only [scanRoots] at h
    cases hr : scanRoot fs st root with
    | error e => simp [hr] at h
    | ok st2 =>
      rw [hr] at h
      have h1 := scanRoot_ok fs st st2 root hr
      have h2 := ih st2 st1 h
      simp only [reached] at h2
      simp [reached, List.foldl_append, h2, h1]

theorem Scan_ok (fs : FS) (paths : List String) (out : List String) (skipped : GoMap String)
    (h : Scan fs paths = .ok (out, skipped)) :
    out = ((reached fs paths).foldl (scanFile fs) ⟨[], [], []⟩).out ∧
    skipped = ((reached fs paths).foldl (scanFile fs) ⟨[], [], []⟩).skipped := by
  unfold Scan at h
  cases hr : scanRoots fs ⟨[], [], []⟩ paths with
  | error e => simp [hr] at h
  | ok st =>
    rw [hr] at h
    simp only [Except.ok.injEq, Prod.mk.injEq] at h
    have := scanRoots_ok fs paths _ _ hr
    rw [← this]
    exact ⟨h.1.symm, h.2.symm⟩

theorem scanFile_of_seen (fs : FS) (st : ScanState) (p : String) (h : fs.Abs p ∈ st.seen) :
    scanFile fs st p = st := by
  simp [scanFile, h]

theorem scanFile_of_new (fs : FS) (st : ScanState) (p : String) (h : fs.Abs p ∉ st.seen) :
    scanFile fs st p =
      if (isTextFileWithReason fs p).1 = true then
        ⟨st.out ++ [p], st.skipped, fs.Abs p :: st.seen⟩
      else if (isTextFileWithReason fs p).2 ≠ "" then
        ⟨st.out, mapSet st.skipped p (isTextFileWithReason fs p).2, fs.Abs p :: st.seen⟩
      else ⟨st.out, st.skipped, fs.Abs p :: st.seen⟩ := by
  simp only [scanFile, h, if_false]
  rcases hc : isTextFileWithReason fs p with ⟨ok, reason⟩
  cases ok <;> simp

/-- Every accepted path is one the classifier accepts. -/
theorem foldl_scanFile_out (fs : FS) (l : List String) :
    ∀ (st : ScanState) (q : String), q ∈ (l.foldl (scanFile fs) st).out →
      q ∈ st.out ∨ (isTextFileWithReason fs q).1 = true := by
  induction l with
  | nil => intro st q h; exact Or.inl h
  | cons p rest ih =>
    intro st q h
    rw [List.foldl_cons] at h
    rcases ih _ q h with h1 | h1
    · by_cases hs : fs.Abs p ∈ st.seen
      · rw [scanFile_of_seen fs st p hs] at h1
        exact Or.inl h1
      · rw [scanFile_of_new fs st p hs] at h1
        split_ifs at h1 with ha hr
        · rcases List.mem_append.mp h1 with h2 | h2
          · exact Or.inl h2
          · rw [List.mem_singleton.mp h2]
            exact Or.inr ha
        · exact Or.inl h1
        · exact Or.inl h1
    · exact Or.inr h1

/-- Every absolute path marked as seen comes from a file that was reached. -/
theorem foldl_scanFile_seen (fs : FS) (l : List String) :
    ∀ (st : ScanState) (a : String), a ∈ (l.foldl (scanFile fs) st).seen →
      a ∈ st.seen ∨ ∃ q ∈ l, fs.Abs q = a := by
  induction l with
  | nil => intro st a h; exact Or.inl h
  | cons p rest ih =>
    intro st a h
    rw [List.foldl_cons] at h
    rcases ih _ a h with h1 | ⟨q, hq, hqa⟩
    · by_cases hs : fs.Abs p ∈ st.seen
      · rw [scanFile_of_seen fs st p hs] at h1
        exact Or.inl h1
      · rw [scanFile_of_new fs st p hs] at h1
        have h2 : a ∈ fs.Abs p :: st.seen := by
          split_ifs at h1 <;> exact h1
        rcases List.mem_cons.mp h2 with h3 | h3
        · exact Or.inr ⟨p, List.mem_cons_self _ _, h3.symm⟩
        · exact Or.inl h3
    · exact Or.inr ⟨q, List.mem_cons_of_mem _ hq, hqa⟩

/-- Once the absolute path of `p` is marked as seen, nothing about `p` changes any more. -/
theorem foldl_scanFile_frozen (fs : FS) (p : String) (l : List String) :
    ∀ (st : ScanState), fs.Abs p ∈ st.seen →
      (p ∈ (l.foldl (scanFile fs) st).out ↔ p ∈ st.out) ∧
      mapGet (l.foldl (scanFile fs) st).skipped p = mapGet st.skipped p := by
  induction l with
  | nil => intro st _; simp
  | cons q rest ih =>
    intro st hp
    rw [List.foldl_cons]
    by_cases hs : fs.Abs q ∈ st.seen
    · rw [scanFile_of_seen fs st q hs]
      exact ih st hp
    · have hqp : q ≠ p := by
        intro h
        rw [h] at hs
        exact hs hp
      have hseen : fs.Abs p ∈ (scanFile fs st q).seen := by
        rw [scanFile_of_new fs st q hs]
        split_ifs <;> exact List.mem_cons_of_mem _ hp
      have h1 := ih (scanFile fs st q) hseen
      rw [h1.1, h1.2, scanFile_of_new fs st q hs]
      split_ifs
      · simp [Ne.symm hqp]
      · simp [mapGet_mapSet_ne _ _ _ _ hqp]
      · simp

/-! ## C1 - C4: the classifier -/

/-- C1, as stated, fails: in the sample `0x01 0x00` the control byte comes first, and the
classifier returns "binary or control characters" although a 0x00 byte is present. -/
theorem C1_null_byte_precedence_counterexample :
    (0x00 : Byte) ∈ ([0x01, 0x00] : List Byte) ∧ (0x01 : Byte) ∈ nonTextBytes ∧
    isTextFileWithReason (singleFileFS "f.bin" [0x01, 0x00]) "f.bin" =
      (false, "binary or control characters") ∧
    isTextFileWithReason (singleFileFS "f.bin" [0x01, 0x00]) "f.bin" ≠ (false, "null byte") := by
  decide

/-- C1, amended: a sample whose first byte outside the allow-set is 0x00 (no byte of
0x00-0x08, 0x0B, 0x0C, 0x0E-0x1F, 0x7F stands before that 0x00) is rejected with the reason
"null byte", whatever bytes follow the 0x00, other control bytes included. -/
theorem C1_null_byte_first (fs : FS) (path : String) (S pre post : List Byte)
    (hopen : fs.Open path = .ok ⟨S, none⟩)
    (hsample : S.take maxScanBytes = pre ++ 0x00 :: post)
    (hpre : ∀ b ∈ pre, b ∉ nonTextBytes) :
    isTextFileWithReason fs path = (false, "null byte") := by
  rw [isTextFileWithReason_of_open fs path S hopen, hsample]
  apply scanBuf_null_first
  intro b hb
  have := hpre b hb
  rw [← isControlByte_iff] at this
  simpa using this

/-- C2: on a file that opens and reads, the classifier accepts (ok = true, empty reason) if and
only if no sampled byte lies in 0x00-0x08, 0x0B, 0x0C, 0x0E-0x1F, 0x7F; ok = true never comes
with another reason; the empty sample is accepted; a sample of tabs, LF, CR, printable ASCII
and bytes from 0x80 up is accepted. -/
theorem C2_accept_iff (fs : FS) (path : String) (S : List Byte)
    (hopen : fs.Open path = .ok ⟨S, none⟩) :
    (isTextFileWithReason fs path = (true, "") ↔
      ∀ b ∈ S.take maxScanBytes, b ∉ nonTextBytes) ∧
    ((isTextFileWithReason fs path).1 = true ↔ isTextFileWithReason fs path = (true, "")) ∧
    (S.take maxScanBytes = [] → isTextFileWithReason fs path = (true, "")) ∧
    ((∀ b ∈ S.take maxScanBytes,
        b = 0x09 ∨ b = 0x0A ∨ b = 0x0D ∨ (0x20 ≤ b ∧ b ≤ 0x7E) ∨ 0x80 ≤ b) →
      isTextFileWithReason fs path = (true, "")) := by
  rw [isTextFileWithReason_of_open fs path S hopen]
  have key : scanBuf (S.take maxScanBytes) = (true, "") ↔
      ∀ b ∈ S.take maxScanBytes, b ∉ nonTextBytes := by
    rw [scanBuf_accept_iff]
    constructor
    · intro h b hb hmem
      rw [← isControlByte_iff, h b hb] at hmem
      exact Bool.noConfusion hmem
    · intro h b hb
      have := h b hb
      rw [← isControlByte_iff] at this
      simpa using this
  refine ⟨key, scanBuf_fst_iff _, ?_, ?_⟩
  · intro h
    rw [h]
    rfl
  · intro h
    rw [key]
    intro b hb hmem
    have hb2 := h b hb
    revert hb2 hmem
    unfold Byte at b
    simp only [nonTextBytes, List.mem_cons, List.mem_singleton, List.not_mem_nil, or_false]
    unfold Byte
    omega

/-- C4: the classification of a readable file depends only on the first 32768 bytes of its
content: two contents that agree there get the same (ok, reason), and so does a content of at
least 32768 bytes with anything appended to it. -/
theorem C4_first_32KiB_only (fs fs2 : FS) (path path2 : String) (S S2 : List Byte)
    (hopen : fs.Open path = .ok ⟨S, none⟩) (hopen2 : fs2.Open path2 = .ok ⟨S2, none⟩) :
    maxScanBytes = 32768 ∧
    (S.take 32768 = S2.take 32768 →
      isTextFileWithReason fs path = isTextFileWithReason fs2 path2) ∧
    (32768 ≤ S.length → (∃ extra, S2 = S ++ extra) →
      isTextFileWithReason fs path = isTextFileWithReason fs2 path2) := by
  have hcap : maxScanBytes = 32768 := by decide
  rw [isTextFileWithReason_of_open fs path S hopen,
    isTextFileWithReason_of_open fs2 path2 S2 hopen2, hcap]
  refine ⟨rfl, ?_, ?_⟩
  · intro h
    rw [h]
  · rintro hlen ⟨extra, rfl⟩
    rw [List.take_append_of_le_length hlen]

/-- C3: a sample without a 0x00 byte and with a byte of 0x01-0x08, 0x0B, 0x0C, 0x0E-0x1F, 0x7F is
rejected with exactly the reason "binary or control characters"; a `Scan` that returns never
has the path in its accepted list, and records that reason for the path in the rejected map
when the path is the first reached file with its absolute path (the one the classifier is
called on), as in a scan of the path alone. -/
theorem C3_control_bytes_rejected (fs : FS) (path : String) (S : List Byte)
    (hopen : fs.Open path = .ok ⟨S, none⟩)
    (hnull : (0x00 : Byte) ∉ S.take maxScanBytes)
    (hctl : ∃ b ∈ S.take maxScanBytes, b ∈ nonTextBytes) :
    isTextFileWithReason fs path = (false, "binary or control characters") ∧
    (∀ paths out skipped, Scan fs paths = .ok (out, skipped) →
      path ∉ out ∧
      (∀ pre post, reached fs paths = pre ++ path :: post →
        (∀ q ∈ pre, fs.Abs q ≠ fs.Abs path) →
        mapGet skipped path = some "binary or control characters")) ∧
    (∀ info, fs.Stat path = .ok info → info.IsRegular = true →
      Scan fs [path] = .ok ([], [(path, "binary or control characters")])) := by
  have hcls : isTextFileWithReason fs path = (false, "binary or control characters") := by
    rw [isTextFileWithReason_of_open fs path S hopen]
    apply scanBuf_control _ hnull
    obtain ⟨b, hb, hmem⟩ := hctl
    exact ⟨b, hb, (isControlByte_iff b).mpr hmem⟩
  have hstep : ∀ st : ScanState, fs.Abs path ∉ st.seen →
      scanFile fs st path =
        ⟨st.out, mapSet st.skipped path "binary or control characters",
          fs.Abs path :: st.seen⟩ := by
    intro st hs
    rw [scanFile_of_new fs st path hs, hcls]
    simp
  refine ⟨hcls, ?_, ?_⟩
  · intro paths out skipped hscan
    obtain ⟨hout, hskip⟩ := Scan_ok fs paths out skipped hscan
    constructor
    · intro hmem
      rw [hout] at hmem
      rcases foldl_scanFile_out fs _ _ _ hmem with h | h
      · simp at h
      · rw [hcls] at h
        exact Bool.noConfusion h
    · intro pre post hreached hfirst
      rw [hskip, hreached, List.foldl_append, List.foldl_cons]
      have hnew : fs.Abs path ∉ (pre.foldl (scanFile fs) ⟨[], [], []⟩).seen := by
        intro h
        rcases foldl_scanFile_seen fs pre _ _ h with h1 | ⟨q, hq, hqa⟩
        · simp at h1
        · exact hfirst q hq hqa
      have hfrozen := foldl_scanFile_frozen fs path post
        (scanFile fs (pre.foldl (scanFile fs) ⟨[], [], []⟩) path)
        (by rw [hstep _ hnew]; exact List.mem_cons_self _ _)
      rw [hfrozen.2, hstep _ hnew]
      exact mapGet_mapSet_self _ _ _
  · intro info hstat hreg
    have hnew : fs.Abs path ∉ (⟨[], [], []⟩ : ScanState).seen := by simp
    simp only [Scan, scanRoots, scanRoot, hstat, hreg, if_true, hstep _ hnew, mapSet]

/-- C1, amended, on the content `hello 0x00 0x01 world`. -/
theorem C1_null_byte_first_witness :
    isTextFileWithReason
      (singleFileFS "null.bin"
        [0x68, 0x65, 0x6C, 0x6C, 0x6F, 0x00, 0x01, 0x77, 0x6F, 0x72, 0x6C, 0x64]) "null.bin" =
      (false, "null byte") :=
  C1_null_byte_first _ "null.bin" _ [0x68, 0x65, 0x6C, 0x6C, 0x6F]
    [0x01, 0x77, 0x6F, 0x72, 0x6C, 0x64] rfl (by decide) (by decide)

/-- C2 on the Latin-1 content of `TestScan_IncludesAnyEncoding`. -/
theorem C2_accept_iff_witness :
    isTextFileWithReason
      (singleFileFS "high.txt" [0x72, 0xE9, 0x73, 0x75, 0x6D, 0xE9, 0x0A]) "high.txt" =
      (true, "") :=
  (C2_accept_iff _ "high.txt" [0x72, 0xE9, 0x73, 0x75, 0x6D, 0xE9, 0x0A] rfl).2.2.2
    (by decide)

/-- C3 on the content of `TestScan_ExcludesBinaryOrControlChars`. -/
theorem C3_control_bytes_rejected_witness :
    Scan (singleFileFS "control.txt"
        [0x68, 0x65, 0x6C, 0x6C, 0x6F, 0x01, 0x77, 0x6F, 0x72, 0x6C, 0x64, 0x0A])
      ["control.txt"] = .ok ([], [("control.txt", "binary or control characters")]) :=
  (C3_control_bytes_rejected _ "control.txt"
    [0x68, 0x65, 0x6C, 0x6C, 0x6F, 0x01, 0x77, 0x6F, 0x72, 0x6C, 0x64, 0x0A] rfl
    (by decide) (by decide)).2.2 ⟨true, false⟩ rfl rfl

/-- C4 on a content of 32768 letters and the same content followed by a 0x00 byte. -/
theorem C4_first_32KiB_only_witness :
    isTextFileWithReason (singleFileFS "big.txt" (List.replicate 32768 0x61)) "big.txt" =
      isTextFileWithReason (singleFileFS "big.txt" (List.replicate 32768 0x61 ++ [0x00]))
        "big.txt" :=
  (C4_first_32KiB_only _ _ "big.txt" "big.txt" (List.replicate 32768 0x61)
    (List.replicate 32768 0x61 ++ [0x00]) rfl rfl).2.2
    (by rw [List.length_replicate]) ⟨[0x00], rfl⟩

/-! ## The order of the report -/

theorem strLess_iff (a b : String) : strLess a b = true ↔ a < b := by
  simp [strLess, String.lt_iff_toList_lt]

theorem issueLess_iff (a b : Issue) : issueLess a b = true ↔ issueKey a < issueKey b := by
  simp only [issueLess, issueKey, Prod.Lex.lt_iff]
  split_ifs with h1 h2 h3
  all_goals simp_all [strLess_iff]

theorem issueLess_eq_false_iff (a b : Issue) :
    issueLess b a = false ↔ issueKey a ≤ issueKey b := by
  rw [← not_lt, ← issueLess_iff]
  simp

theorem keyLe_iff (a b : Issue) : keyLe a b ↔ issueKey a ≤ issueKey b := by
  simp only [keyLe, issueKey, Prod.Lex.le_iff]

theorem issueKey_eq_iff (a b : Issue) :
    issueKey a = issueKey b ↔
      a.File = b.File ∧ a.RuleID = b.RuleID ∧ a.Line = b.Line ∧ a.Column = b.Column := by
  unfold issueKey
  constructor
  · intro h
    have h1 := congrArg ofLex h
    simp only [ofLex_toLex, Prod.mk.injEq] at h1
    have h2 := congrArg ofLex h1.2
    simp only [ofLex_toLex, Prod.mk.injEq] at h2
    have h3 := congrArg ofLex h2.2
    simp only [ofLex_toLex, Prod.mk.injEq] at h3
    exact ⟨h1.1, h2.1, h3.1, h3.2⟩
  · rintro ⟨h1, h2, h3, h4⟩
    rw [h1, h2, h3, h4]

/-- The comparison of `writeCompact` is a strict weak ordering, as `sort.Slice` requires. -/
theorem issueLess_strictWeakOrder : StrictWeakOrder issueLess where
  irrefl := by
    intro a
    rw [issueLess_eq_false_iff]
  trans := by
    intro a b c hab hbc
    rw [issueLess_iff] at hab hbc ⊢
    exact lt_trans hab hbc
  incomp_trans := by
    intro a b c hab hbc
    rw [issueLess_eq_false_iff] at hab hbc ⊢
    exact le_trans hab hbc

/-- Two arrangements of the same elements, both in order, are equal when the elements that
compare equal both ways are equal. -/
theorem eq_of_perm_of_pairwise {α : Type} (r : α → α → Prop) :
    ∀ (l1 l2 : List α), (∀ a ∈ l1, ∀ b ∈ l1, r a b → r b a → a = b) → l1.Perm l2 →
      l1.Pairwise r → l2.Pairwise r → l1 = l2 := by
  intro l1
  induction l1 with
  | nil =>
    intro l2 _ hp _ _
    exact (List.Perm.nil_eq hp)
  | cons a t1 ih =>
    intro l2 hanti hp h1 h2
    cases l2 with
    | nil => exact absurd hp.symm (List.nil_perm.not.mpr (List.cons_ne_nil _ _))
    | cons b t2 =>
      rw [List.pairwise_cons] at h1 h2
      have hab : a = b := by
        by_cases hne : a = b
        · exact hne
        · have ha : a ∈ b :: t2 := hp.subset (List.mem_cons_self _ _)
          have hb : b ∈ a :: t1 := hp.symm.subset (List.mem_cons_self _ _)
          have ha2 : a ∈ t2 := by
            rcases List.mem_cons.mp ha with h | h
            · exact absurd h hne
            · exact h
          have hb2 : b ∈ t1 := by
            rcases List.mem_cons.mp hb with h | h
            · exact absurd h.symm hne
            · exact h
          exact hanti a (List.mem_cons_self _ _) b hb (h1.1 b hb2) (h2.1 a ha2)
      subst hab
      have hp2 : t1.Perm t2 := List.Perm.cons_inv hp
      have := ih t2 (fun x hx y hy => hanti x (List.mem_cons_of_mem _ hx) y
        (List.mem_cons_of_mem _ hy)) hp2 h1.2 h2.2
      rw [this]

/-! ## The writer -/

theorem Fprint_neverFails (w : Writer) (s : String) (hw : w.neverFails) :
    w.Fprint s = ({ w with written := w.written ++ s }, none) := by
  simp [Writer.Fprint, hw w.written s]

theorem writeIssues_neverFails (l : List Issue) :
    ∀ (w : Writer), w.neverFails →
      writeIssues w l =
        ({ w with written := w.written ++ joinLines (l.map formatIssue) }, none) := by
  induction l with
  | nil =>
    intro w _
    simp [writeIssues, joinLines]
  | cons i rest ih =>
    intro w hw
    have hw1 : Writer.neverFails { w with written := w.written ++ formatIssue i } := hw
    simp only [writeIssues, Fprint_neverFails w _ hw, ih _ hw1, List.map_cons, joinLines,
      String.append_assoc]

theorem writeCompact_neverFails (S : SliceSorter) (w : Writer) (issues : List Issue)
    (filesScanned : Int) (hw : w.neverFails) :
    writeCompact S w issues filesScanned =
      ({ w with written := w.written ++
          joinLines ((S.sort issueLess issues).map formatIssue) ++
          summaryLine (S.sort issueLess issues) filesScanned }, none) := by
  have hw1 : Writer.neverFails
      { w with written := w.written ++ joinLines ((S.sort issueLess issues).map formatIssue) } :=
    hw
  simp only [writeCompact, writeIssues_neverFails _ w hw, Fprint_neverFails _ _ hw1]

/-! ## C5 - C7: the report -/

/-- C5: for every list of issues, the issue lines `report.Write` emits to a writer that takes
them are the lines of a permutation of the input (same issues, same multiplicities) that is
in non-decreasing lexicographic order of (File, RuleID, Line, Column). -/
theorem C5_sorted_permutation (S : SliceSorter) (w : Writer) (format : Format)
    (issues : List Issue) (filesScanned : Int) (files : List String) (hw : w.neverFails) :
    ∃ emitted : List Issue,
      emitted.Perm issues ∧
      emitted.Pairwise keyLe ∧
      (Write S w format issues filesScanned files).1.written =
        w.written ++ joinLines (emitted.map formatIssue) ++ summaryLine emitted filesScanned := by
  refine ⟨S.sort issueLess issues, S.perm _ _, ?_, ?_⟩
  · refine (S.sorted issueLess issues issueLess_strictWeakOrder).imp ?_
    intro a b h
    rw [keyLe_iff, ← issueLess_eq_false_iff]
    exact h
  · simp only [Write, writeCompact_neverFails S w issues filesScanned hw]

/-- C6, as stated, fails: two issues that differ only in Message are distinct but compare
equal, the sort leaves them in the order of the input, and the two orders of the input give
different output. -/
theorem C6_permutation_counterexample :
    (⟨"a.txt", 1, 1, "TL010", "first"⟩ : Issue) ≠ ⟨"a.txt", 1, 1, "TL010", "second"⟩ ∧
    List.Perm
      [(⟨"a.txt", 1, 1, "TL010", "second"⟩ : Issue), ⟨"a.txt", 1, 1, "TL010", "first"⟩]
      [⟨"a.txt", 1, 1, "TL010", "first"⟩, ⟨"a.txt", 1, 1, "TL010", "second"⟩] ∧
    (Write insertionSorter (bufferWriter "") FormatCompact
      [⟨"a.txt", 1, 1, "TL010", "first"⟩, ⟨"a.txt", 1, 1, "TL010", "second"⟩] 1 []).1.written =
      "a.txt:1:1: TL010: first\na.txt:1:1: TL010: second\n1 file(s) scanned, 2 issue(s).\n" ∧
    (Write insertionSorter (bufferWriter "") FormatCompact
      [⟨"a.txt", 1, 1, "TL010", "second"⟩, ⟨"a.txt", 1, 1, "TL010", "first"⟩] 1 []).1.written =
      "a.txt:1:1: TL010: second\na.txt:1:1: TL010: first\n1 file(s) scanned, 2 issue(s).\n" := by
  refine ⟨by decide, List.Perm.swap _ _ _, by decide, by decide⟩

/-- C6, amended: when any two issues of the list with the same (File, RuleID, Line, Column) are
the same issue, `report.Write` with the same filesScanned gives the same result (output and
error) for the list and for every permutation of it. -/
theorem C6_order_independent (S : SliceSorter) (w : Writer) (format : Format)
    (issues issues2 : List Issue) (filesScanned : Int) (files files2 : List String)
    (hperm : issues2.Perm issues)
    (hkey : ∀ a ∈ issues, ∀ b ∈ issues, a.File = b.File → a.RuleID = b.RuleID →
      a.Line = b.Line → a.Column = b.Column → a = b) :
    Write S w format issues2 filesScanned files2 = Write S w format issues filesScanned files := by
  have hsort : S.sort issueLess issues2 = S.sort issueLess issues := by
    apply eq_of_perm_of_pairwise (fun a b => issueLess b a = false)
    · intro a ha b hb hab hba
      have ha2 : a ∈ issues := (hperm.subset ((S.perm issueLess issues2).subset ha))
      have hb2 : b ∈ issues := (hperm.subset ((S.perm issueLess issues2).subset hb))
      rw [issueLess_eq_false_iff] at hab hba
      obtain ⟨h1, h2, h3, h4⟩ := (issueKey_eq_iff a b).mp (le_antisymm hab hba)
      exact hkey a ha2 b hb2 h1 h2 h3 h4
    · exact ((S.perm issueLess issues2).trans hperm).trans (S.perm issueLess issues).symm
    · exact S.sorted issueLess issues2 issueLess_strictWeakOrder
    · exact S.sorted issueLess issues issueLess_strictWeakOrder
  simp only [Write, writeCompact, hsort]

/-- C7: for a writer that never fails and filesScanned >= 0, `report.Write` returns no error
and its output is one line `File:Line:Column: RuleID: Message` per issue (as many lines as
issues in the input, in the sorted order) followed by the one summary line
`N file(s) scanned, M issue(s).` with N = filesScanned and M the number of input issues. -/
theorem C7_output_format (S : SliceSorter) (w : Writer) (format : Format)
    (issues : List Issue) (filesScanned : Int) (files : List String)
    (hw : w.neverFails) (hn : 0 ≤ filesScanned) :
    (S.sort issueLess issues).Perm issues ∧
    ((S.sort issueLess issues).map formatIssue).length = issues.length ∧
    (∀ i : Issue, formatIssue i =
      i.File ++ ":" ++ toString i.Line ++ ":" ++ toString i.Column ++ ": " ++ i.RuleID ++ ": " ++
        i.Message ++ "\n") ∧
    (Write S w format issues filesScanned files).2 = none ∧
    (Write S w format issues filesScanned files).1.written =
      w.written ++ joinLines ((S.sort issueLess issues).map formatIssue) ++
        (toString filesScanned ++ " file(s) scanned, " ++ toString issues.length ++
          " issue(s).\n") := by
  have hlen : (S.sort issueLess issues).length = issues.length := (S.perm _ _).length_eq
  refine ⟨S.perm _ _, by simp [hlen], fun _ => rfl, ?_, ?_⟩
  · simp only [Write, writeCompact_neverFails S w issues filesScanned hw]
  · simp only [Write, writeCompact_neverFails S w issues filesScanned hw, summaryLine, hlen,
      ge_iff_le, hn, if_true]

/-- C5 on the two issues of `TestWrite_Compact`, sorted by insertion: the TL001 line comes
first. -/
theorem C5_sorted_permutation_witness :
    ∃ emitted : List Issue,
      emitted.Perm
        [⟨"a.txt", 1, 5, "TL010", "no trailing spaces"⟩,
         ⟨"a.txt", 2, 1, "TL001", "file must end with exactly one newline"⟩] ∧
      emitted.Pairwise keyLe ∧
      (Write insertionSorter (bufferWriter "") FormatCompact
        [⟨"a.txt", 1, 5, "TL010", "no trailing spaces"⟩,
         ⟨"a.txt", 2, 1, "TL001", "file must end with exactly one newline"⟩] 10 []).1.written =
        (bufferWriter "").written ++ joinLines (emitted.map formatIssue) ++
          summaryLine emitted 10 :=
  C5_sorted_permutation insertionSorter (bufferWriter "") FormatCompact _ 10 []
    (fun _ _ => rfl)

/-- C6, amended, on the two issues of `TestWrite_Compact_TwoFiles` in both orders. -/
theorem C6_order_independent_witness :
    Write insertionSorter (bufferWriter "") FormatCompact
      [⟨"b.txt", 1, 1, "TL001", "y"⟩, ⟨"a.txt", 1, 1, "TL001", "x"⟩] 6 [] =
    Write insertionSorter (bufferWriter "") FormatCompact
      [⟨"a.txt", 1, 1, "TL001", "x"⟩, ⟨"b.txt", 1, 1, "TL001", "y"⟩] 6 [] :=
  C6_order_independent insertionSorter (bufferWriter "") FormatCompact _ _ 6 [] []
    (List.Perm.swap _ _ _) (by decide)

/-- C7 on the two issues of `TestWrite_Compact` with ten files scanned. -/
theorem C7_output_format_witness :
    (Write insertionSorter (bufferWriter "") FormatCompact
      [⟨"a.txt", 1, 5, "TL010", "no trailing spaces"⟩,
       ⟨"a.txt", 2, 1, "TL001", "file must end with exactly one newline"⟩] 10 []).1.written =
      "a.txt:2:1: TL001: file must end with exactly one newline\n" ++
      "a.txt:1:5: TL010: no trailing spaces\n" ++
      "10 file(s) scanned, 2 issue(s).\n" :=
  ((C7_output_format insertionSorter (bufferWriter "") FormatCompact
    [⟨"a.txt", 1, 5, "TL010", "no trailing spaces"⟩,
     ⟨"a.txt", 2, 1, "TL001", "file must end with exactly one newline"⟩] 10 []
    (fun _ _ => rfl) (by decide)).2.2.2.2).trans (by decide)

/-! ## Unreadable files -/

theorem isTextFileWithReason_of_unreadable (fs : FS) (path : String)
    (h : unreadable fs path = true) : isTextFileWithReason fs path = (false, "") := by
  unfold unreadable at h
  unfold isTextFileWithReason
  cases ho : fs.Open path with
  | error e => rfl
  | ok f =>
    rw [ho] at h
    simp only [Option.isSome_iff_exists] at h
    obtain ⟨e, he⟩ := h
    simp [File.Read, he]

theorem walkDir_total (fs : FS) (entries : List (String × Except Err FileInfo))
    (h : walkOK entries = true) : ∀ st, ∃ r, walkDir fs st entries = .ok r := by
  induction entries with
  | nil => intro st; exact ⟨st, rfl⟩
  | cons entry rest ih =>
    intro st
    obtain ⟨p, res⟩ := entry
    simp only [walkOK, List.all_cons, Bool.and_eq_true] at h
    cases res with
    | error e => simp at h
    | ok fi =>
      have hrest : walkOK rest = true := h.2
      by_cases hreg : fi.IsRegular = true
      · simp only [walkDir, walkFn, hreg, Bool.not_true, Bool.false_eq_true, if_false]
        exact ih hrest _
      · have hreg2 : fi.IsRegular = false := by simpa using hreg
        simp only [walkDir, walkFn, hreg2, Bool.not_false, if_true]
        exact ih hrest _

/-- On traversable paths the loop of `Scan` ends without error. -/
theorem scanRoots_total (fs : FS) (paths : List String) (h : traversable fs paths = true) :
    ∀ st, ∃ r, scanRoots fs st paths = .ok r := by
  induction paths with
  | nil => intro st; exact ⟨st, rfl⟩
  | cons root rest ih =>
    intro st
    simp only [traversable, List.all_cons, Bool.and_eq_true] at h
    have hrest : traversable fs rest = true := h.2
    have hroot := h.1
    cases hs : fs.Stat root with
    | error e => simp [hs] at hroot
    | ok info =>
      rw [hs] at hroot
      simp only [Bool.or_eq_true, Bool.not_eq_true'] at hroot
      have hone : ∃ st1, scanRoot fs st root = .ok st1 := by
        unfold scanRoot
        rw [hs]
        simp only
        by_cases hreg : info.IsRegular = true
        · simp only [hreg, if_true]
          exact ⟨_, rfl⟩
        · have hreg2 : info.IsRegular = false := by simpa using hreg
          by_cases hdir : info.IsDir = true
          · simp only [hreg2, hdir, if_true, Bool.false_eq_true, if_false]
            rcases hroot with (h1 | h1) | h1
            · exact absurd h1 hreg
            · rw [hdir] at h1
              exact Bool.noConfusion h1
            · exact walkDir_total fs _ h1 st
          · have hdir2 : info.IsDir = false := by simpa using hdir
            simp only [hreg2, hdir2, Bool.false_eq_true, if_false]
            exact ⟨_, rfl⟩
      obtain ⟨st1, hst1⟩ := hone
      obtain ⟨r, hr⟩ := ih hrest st1
      exact ⟨r, by simp only [scanRoots, hst1, hr]⟩

theorem SameExceptSeen.symm {a : String} {st st2 : ScanState} (h : SameExceptSeen a st st2) :
    SameExceptSeen a st2 st :=
  ⟨h.1.symm, h.2.1.symm, fun x hx => (h.2.2 x hx).symm⟩

theorem SameExceptSeen.trans {a : String} {st st2 st3 : ScanState}
    (h : SameExceptSeen a st st2) (h2 : SameExceptSeen a st2 st3) : SameExceptSeen a st st3 :=
  ⟨h.1.trans h2.1, h.2.1.trans h2.2.1, fun x hx => (h.2.2 x hx).trans (h2.2.2 x hx)⟩

/-- Scanning a file the classifier excludes with an empty reason changes at most `seen`, at
the absolute path of the file. -/
theorem scanFile_excluded (fs : FS) (st : ScanState) (q : String)
    (hcls : isTextFileWithReason fs q = (false, "")) :
    SameExceptSeen (fs.Abs q) (scanFile fs st q) st := by
  by_cases hs : fs.Abs q ∈ st.seen
  · rw [scanFile_of_seen fs st q hs]
    exact ⟨rfl, rfl, fun _ _ => Iff.rfl⟩
  · rw [scanFile_of_new fs st q hs, hcls]
    refine ⟨by simp, by simp, ?_⟩
    intro x hx
    simp [hx]

/-- Scanning a file with another absolute path than `a` keeps two states in agreement. -/
theorem scanFile_other (fs : FS) (a : String) (st st2 : ScanState) (q : String)
    (hq : fs.Abs q ≠ a) (h : SameExceptSeen a st st2) :
    SameExceptSeen a (scanFile fs st q) (scanFile fs st2 q) := by
  obtain ⟨ho, hk, hseen⟩ := h
  by_cases hs : fs.Abs q ∈ st.seen
  · have hs2 : fs.Abs q ∈ st2.seen := (hseen _ hq).mp hs
    rw [scanFile_of_seen fs st q hs, scanFile_of_seen fs st2 q hs2]
    exact ⟨ho, hk, hseen⟩
  · have hs2 : fs.Abs q ∉ st2.seen := fun h2 => hs ((hseen _ hq).mpr h2)
    rw [scanFile_of_new fs st q hs, scanFile_of_new fs st2 q hs2]
    split_ifs
    · exact ⟨by simp [ho], hk, fun x hx => by simp [hseen x hx]⟩
    · exact ⟨ho, by simp [hk], fun x hx => by simp [hseen x hx]⟩
    · exact ⟨ho, hk, fun x hx => by simp [hseen x hx]⟩

/-- When every path with the absolute path `a` is excluded by the classifier, scanning any file
keeps two states in agreement. -/
theorem scanFile_agree (fs : FS) (a : String)
    (hex : ∀ q, fs.Abs q = a → isTextFileWithReason fs q = (false, ""))
    (st st2 : ScanState) (q : String) (h : SameExceptSeen a st st2) :
    SameExceptSeen a (scanFile fs st q) (scanFile fs st2 q) := by
  by_cases hq : fs.Abs q = a
  · have h1 := scanFile_excluded fs st q (hex q hq)
    have h2 := scanFile_excluded fs st2 q (hex q hq)
    rw [hq] at h1 h2
    exact (h1.trans h).trans h2.symm
  · exact scanFile_other fs a st st2 q hq h

theorem walkDir_agree (fs : FS) (a : String)
    (hex : ∀ q, fs.Abs q = a → isTextFileWithReason fs q = (false, ""))
    (entries : List (String × Except Err FileInfo)) :
    ∀ (st st2 r : ScanState), SameExceptSeen a st st2 → walkDir fs st entries = .ok r →
      ∃ r2, walkDir fs st2 entries = .ok r2 ∧ SameExceptSeen a r r2 := by
  induction entries with
  | nil =>
    intro st st2 r h hw
    simp only [walkDir, Except.ok.injEq] at hw
    exact ⟨st2, rfl, hw ▸ h⟩
  | cons entry rest ih =>
    intro st st2 r h hw
    obtain ⟨p, res⟩ := entry
    cases res with
    | error e => simp [walkDir, walkFn] at hw
    | ok fi =>
      by_cases hreg : fi.IsRegular = true
      · simp only [walkDir, walkFn, hreg, Bool.not_true, Bool.false_eq_true, if_false] at hw ⊢
        exact ih _ _ r (scanFile_agree fs a hex st st2 p h) hw
      · have hreg2 : fi.IsRegular = false := by simpa using hreg
        simp only [walkDir, walkFn, hreg2, Bool.not_false, if_true] at hw ⊢
        exact ih _ _ r h hw

theorem scanRoot_agree (fs : FS) (a : String)
    (hex : ∀ q, fs.Abs q = a → isTextFileWithReason fs q = (false, ""))
    (st st2 r : ScanState) (root : String) (h : SameExceptSeen a st st2)
    (hr : scanRoot fs st root = .ok r) :
    ∃ r2, scanRoot fs st2 root = .ok r2 ∧ SameExceptSeen a r r2 := by
  unfold scanRoot at hr ⊢
  cases hs : fs.Stat root with
  | error e => simp [hs] at hr
  | ok info =>
    rw [hs] at hr
    simp only at hr ⊢
    by_cases hreg : info.IsRegular = true
    · simp only [hreg, if_true, Except.ok.injEq] at hr ⊢
      exact ⟨_, rfl, hr ▸ scanFile_agree fs a hex st st2 root h⟩
    · have hreg2 : info.IsRegular = false := by simpa using hreg
      by_cases hdir : info.IsDir = true
      · simp only [hreg2, hdir, if_true, Bool.false_eq_true, if_false] at hr ⊢
        exact walkDir_agree fs a hex _ st st2 r h hr
      · have hdir2 : info.IsDir = false := by simpa using hdir
        simp only [hreg2, hdir2, Bool.false_eq_true, if_false, Except.ok.injEq] at hr ⊢
        exact ⟨_, rfl, hr ▸ h⟩

/-- Dropping an excluded regular file from the roots leaves the accepted list and the rejected
map as they are. -/
theorem scanRoots_drop (fs : FS) (p : String)
    (hex : ∀ q, fs.Abs q = fs.Abs p → isTextFileWithReason fs q = (false, ""))
    (info : FileInfo) (hstat : fs.Stat p = .ok info) (hreg : info.IsRegular = true)
    (paths : List String) :
    ∀ (st st2 r : ScanState), SameExceptSeen (fs.Abs p) st st2 →
      scanRoots fs st paths = .ok r →
      ∃ r2, scanRoots fs st2 (paths.filter (fun q => decide (q ≠ p))) = .ok r2 ∧
        SameExceptSeen (fs.Abs p) r r2 := by
  induction paths with
  | nil =>
    intro st st2 r h hr
    simp only [scanRoots, Except.ok.injEq] at hr
    exact ⟨st2, rfl, hr ▸ h⟩
  | cons root rest ih =>
    intro st st2 r h hr
    simp only [scanRoots] at hr
    cases hroot : scanRoot fs st root with
    | error e => simp [hroot] at hr
    | ok st1 =>
      rw [hroot] at hr
      simp only at hr
      by_cases hp : root = p
      · subst hp
        have hst1 : st1 = scanFile fs st root := by
          simp only [scanRoot, hstat, hreg, if_true, Except.ok.injEq] at hroot
          exact hroot.symm
        have h1 : SameExceptSeen (fs.Abs root) st1 st2 :=
          hst1 ▸ (scanFile_excluded fs st root (hex root rfl)).trans h
        simpa using ih st1 st2 r h1 hr
      · obtain ⟨st3, hst3, h3⟩ := scanRoot_agree fs (fs.Abs p) hex st st2 st1 root h hroot
        obtain ⟨r2, hr2, h4⟩ := ih st1 st3 r h3 hr
        refine ⟨r2, ?_, h4⟩
        simp only [List.filter_cons, hp, ne_eq, not_false_eq_true, decide_True, if_true,
          scanRoots, hst3]
        exact hr2

/-- The fold over the reached files, with the aliases of an excluded file left out. -/
theorem foldl_scanFile_drop (fs : FS) (p : String)
    (hex : ∀ q, fs.Abs q = fs.Abs p → isTextFileWithReason fs q = (false, ""))
    (l : List String) :
    ∀ (st st2 : ScanState), SameExceptSeen (fs.Abs p) st st2 →
      SameExceptSeen (fs.Abs p) (l.foldl (scanFile fs) st)
        ((l.filter (fun q => decide (fs.Abs q ≠ fs.Abs p))).foldl (scanFile fs) st2) := by
  induction l with
  | nil => intro st st2 h; exact h
  | cons q rest ih =>
    intro st st2 h
    by_cases hq : fs.Abs q = fs.Abs p
    · have h1 := scanFile_excluded fs st q (hex q hq)
      rw [hq] at h1
      simpa [List.filter_cons, hq] using ih _ st2 (h1.trans h)
    · simpa [List.filter_cons, hq] using
        ih _ _ (scanFile_other fs (fs.Abs p) st st2 q hq h)

/-- A path the classifier excludes with an empty reason never becomes a key of the rejected
map. -/
theorem foldl_scanFile_not_skipped (fs : FS) (p : String)
    (hcls : isTextFileWithReason fs p = (false, "")) (l : List String) :
    ∀ (st : ScanState), mapGet st.skipped p = none →
      mapGet (l.foldl (scanFile fs) st).skipped p = none := by
  induction l with
  | nil => intro st h; exact h
  | cons q rest ih =>
    intro st h
    rw [List.foldl_cons]
    apply ih
    by_cases hs : fs.Abs q ∈ st.seen
    · rw [scanFile_of_seen fs st q hs]
      exact h
    · rw [scanFile_of_new fs st q hs]
      split_ifs with h1 h2
      · exact h
      · have hqp : q ≠ p := by
          intro hqp
          rw [hqp, hcls] at h2
          exact h2 rfl
        simp only [mapGet_mapSet_ne _ _ _ _ hqp, h]
      · exact h

/-- A walk that ends without error handed no error to its callback. -/
theorem walkOK_of_walkDir_ok (fs : FS) (entries : List (String × Except Err FileInfo)) :
    ∀ (st r : ScanState), walkDir fs st entries = .ok r → walkOK entries = true := by
  induction entries with
  | nil => intro st r _; rfl
  | cons entry rest ih =>
    intro st r h
    obtain ⟨p, res⟩ := entry
    cases res with
    | error e => simp [walkDir, walkFn] at h
    | ok fi =>
      by_cases hreg : fi.IsRegular = true
      · simp only [walkDir, walkFn, hreg, Bool.not_true, Bool.false_eq_true, if_false] at h
        simpa [walkOK] using ih _ _ h
      · have hreg2 : fi.IsRegular = false := by simpa using hreg
        simp only [walkDir, walkFn, hreg2, Bool.not_false, if_true] at h
        simpa [walkOK] using ih _ _ h

/-- The loop of `Scan` ends without error only on traversable paths. -/
theorem traversable_of_scanRoots_ok (fs : FS) (paths : List String) :
    ∀ (st r : ScanState), scanRoots fs st paths = .ok r → traversable fs paths = true := by
  induction paths with
  | nil => intro st r _; rfl
  | cons root rest ih =>
    intro st r h
    simp only [scanRoots] at h
    cases hroot : scanRoot fs st root with
    | error e => simp [hroot] at h
    | ok st1 =>
      rw [hroot] at h
      have hrest : traversable fs rest = true := ih st1 r h
      have hone : (match fs.Stat root with
          | .error _ => false
          | .ok info => info.IsRegular || !info.IsDir || walkOK (fs.Walk root)) = true := by
        unfold scanRoot at hroot
        cases hs : fs.Stat root with
        | error e => simp [hs] at hroot
        | ok info =>
          rw [hs] at hroot
          simp only at hroot ⊢
          by_cases hreg : info.IsRegular = true
          · simp [hreg]
          · have hreg2 : info.IsRegular = false := by simpa using hreg
            by_cases hdir : info.IsDir = true
            · simp only [hreg2, hdir, if_true, Bool.false_eq_true, if_false] at hroot
              simp [hreg2, hdir, walkOK_of_walkDir_ok fs _ _ _ hroot]
            · have hdir2 : info.IsDir = false := by simpa using hdir
              simp [hreg2, hdir2]
      simp only [traversable, List.all_cons, Bool.and_eq_true]
      exact ⟨hone, hrest⟩

/-- `Scan` returns without error exactly on traversable paths. -/
theorem Scan_ok_iff_traversable (fs : FS) (paths : List String) :
    (∃ out skipped, Scan fs paths = .ok (out, skipped)) ↔ traversable fs paths = true := by
  constructor
  · rintro ⟨out, skipped, h⟩
    unfold Scan at h
    cases hr : scanRoots fs ⟨[], [], []⟩ paths with
    | error e => simp [hr] at h
    | ok st => exact traversable_of_scanRoots_ok fs paths _ _ hr
  · intro h
    obtain ⟨r, hr⟩ := scanRoots_total fs paths h ⟨[], [], []⟩
    exact ⟨r.out, r.skipped, by simp only [Scan, hr]⟩

/-! ## C9: unreadable paths -/

/-- C9, as stated, fails: a listed path that cannot be stat'ed makes `Scan` return the error,
although the scan of the other path alone succeeds; so does an entry under a listed directory
that the walk cannot stat. -/
theorem C9_stat_failure_counterexample :
    lockedFS.Stat "gone.txt" = .error "no such file or directory" ∧
    Scan lockedFS ["a.txt"] = .ok (["a.txt"], []) ∧
    Scan lockedFS ["a.txt", "gone.txt"] = .error "no such file or directory" ∧
    Scan walkErrorFS ["dir"] = .error "lstat dir/gone: no such file or directory" := by
  refine ⟨rfl, rfl, rfl, rfl⟩

/-- C9, amended: `Scan` returns without error exactly when `os.Stat` succeeds on every listed
path and the walk of every listed directory hands no error to its callback (every entry under
it can be lstat'ed and every directory under it can be read). In that case a file that cannot
be opened or whose read fails, under every path with its absolute path, is excluded silently:
its path is neither in the accepted list nor a key of the rejected map; when it is a regular
file, the accepted list and the rejected map are the same as for the list without the path;
and they are those of the scan of the reached files other than it and its aliases. -/
theorem C9_unreadable_excluded (fs : FS) (p : String) (paths : List String)
    (hun : ∀ q, fs.Abs q = fs.Abs p → unreadable fs q = true) :
    ((∃ out skipped, Scan fs paths = .ok (out, skipped)) ↔ traversable fs paths = true) ∧
    (traversable fs paths = true →
      ∃ out skipped, Scan fs paths = .ok (out, skipped) ∧
        p ∉ out ∧ mapGet skipped p = none ∧
        (∀ info, fs.Stat p = .ok info → info.IsRegular = true →
          Scan fs (paths.filter (fun q => decide (q ≠ p))) = .ok (out, skipped)) ∧
        out = (((reached fs paths).filter (fun q => decide (fs.Abs q ≠ fs.Abs p))).foldl
          (scanFile fs) ⟨[], [], []⟩).out ∧
        skipped = (((reached fs paths).filter (fun q => decide (fs.Abs q ≠ fs.Abs p))).foldl
          (scanFile fs) ⟨[], [], []⟩).skipped) := by
  refine ⟨Scan_ok_iff_traversable fs paths, ?_⟩
  intro hstat
  have hex : ∀ q, fs.Abs q = fs.Abs p → isTextFileWithReason fs q = (false, "") :=
    fun q hq => isTextFileWithReason_of_unreadable fs q (hun q hq)
  have hinit : SameExceptSeen (fs.Abs p) ⟨[], [], []⟩ ⟨[], [], []⟩ :=
    ⟨rfl, rfl, fun _ _ => Iff.rfl⟩
  obtain ⟨r, hr⟩ := scanRoots_total fs paths hstat ⟨[], [], []⟩
  have hfold := scanRoots_ok fs paths _ _ hr
  refine ⟨r.out, r.skipped, by simp only [Scan, hr], ?_, ?_, ?_, ?_, ?_⟩
  · intro hmem
    rw [hfold] at hmem
    rcases foldl_scanFile_out fs _ _ _ hmem with h | h
    · simp at h
    · rw [hex p rfl] at h
      exact Bool.noConfusion h
  · rw [hfold]
    exact foldl_scanFile_not_skipped fs p (hex p rfl) _ _ rfl
  · intro info hinfo hreg
    obtain ⟨r2, hr2, hsame⟩ :=
      scanRoots_drop fs p hex info hinfo hreg paths _ _ r hinit hr
    simp only [Scan, hr2, hsame.1, hsame.2.1]
  · have := foldl_scanFile_drop fs p hex (reached fs paths) _ _ hinit
    rw [← hfold] at this
    exact this.1
  · have := foldl_scanFile_drop fs p hex (reached fs paths) _ _ hinit
    rw [← hfold] at this
    exact this.2.1

/-- C9, amended, on a text file listed together with a file that cannot be opened, where the
scan returns and drops the file, and on a directory that can be stat'ed but not read, where
the scan returns the error. -/
theorem C9_unreadable_excluded_witness :
    (∃ out skipped, Scan lockedFS ["a.txt", "locked.txt"] = .ok (out, skipped) ∧
      "locked.txt" ∉ out ∧ mapGet skipped "locked.txt" = none ∧
      (∀ info, lockedFS.Stat "locked.txt" = .ok info → info.IsRegular = true →
        Scan lockedFS (["a.txt", "locked.txt"].filter (fun q => decide (q ≠ "locked.txt"))) =
          .ok (out, skipped)) ∧
      out = (((reached lockedFS ["a.txt", "locked.txt"]).filter
        (fun q => decide (lockedFS.Abs q ≠ lockedFS.Abs "locked.txt"))).foldl
        (scanFile lockedFS) ⟨[], [], []⟩).out ∧
      skipped = (((reached lockedFS ["a.txt", "locked.txt"]).filter
        (fun q => decide (lockedFS.Abs q ≠ lockedFS.Abs "locked.txt"))).foldl
        (scanFile lockedFS) ⟨[], [], []⟩).skipped) ∧
    Scan lockedFS ["a.txt", "locked.txt"] = .ok (["a.txt"], []) ∧
    unreadableDirFS.Stat "dir" = .ok ⟨false, true⟩ ∧
    Scan unreadableDirFS ["dir"] = .error "open dir: permission denied" ∧
    ¬ ∃ out skipped, Scan unreadableDirFS ["dir"] = .ok (out, skipped) :=
  ⟨(C9_unreadable_excluded lockedFS "locked.txt" ["a.txt", "locked.txt"]
      (fun q hq => by
        have hq2 : q = "locked.txt" := hq
        rw [hq2]
        rfl)).2 rfl,
    rfl, rfl, rfl,
    fun h => absurd
      ((C9_unreadable_excluded unreadableDirFS "dir" ["dir"] (fun _ _ => rfl)).1.mp h)
      (by decide)⟩

/-! ## The run loop -/

theorem sort_nil (S : SliceSorter) {α : Type} (less : α → α → Bool) : S.sort less [] = [] :=
  List.Perm.eq_nil (S.perm less [])

theorem Logf_stdout (w : World) (cur level : Level) (s : String) :
    (Logf w cur level s).stdout = w.stdout := by
  unfold Logf
  split_ifs <;> rfl

theorem Logf_checked (w : World) (cur level : Level) (s : String) :
    (Logf w cur level s).checked = w.checked := by
  unfold Logf
  split_ifs <;> rfl

theorem Logf_fixed (w : World) (cur level : Level) (s : String) :
    (Logf w cur level s).fixed = w.fixed := by
  unfold Logf
  split_ifs <;> rfl

theorem mapKeys_mapSet {V : Type} (m : GoMap V) (k : String) (v : V) :
    ∀ x ∈ mapKeys (mapSet m k v), x = k ∨ x ∈ mapKeys m := by
  induction m with
  | nil =>
    intro x hx
    simpa [mapKeys, mapSet] using hx
  | cons kv rest ih =>
    obtain ⟨k1, v1⟩ := kv
    intro x hx
    by_cases h : k1 = k
    · simp only [mapSet, h, if_true, mapKeys, List.map_cons, List.mem_cons] at hx ⊢
      rcases hx with hx | hx
      · exact Or.inl hx
      · exact Or.inr (Or.inr hx)
    · simp only [mapSet, h, if_false, mapKeys, List.map_cons, List.mem_cons] at hx ⊢
      rcases hx with hx | hx
      · exact Or.inr (Or.inl hx)
      · rcases ih x hx with h2 | h2
        · exact Or.inl h2
        · exact Or.inr (Or.inr h2)

/-- One iteration of the check loop on a file whose check succeeds. -/
theorem checkOne_ok (ops : Ops) (lvl : Level) (check : Bool) (st : CheckState) (path : String)
    (issues : List Issue) (h : ops.CheckFile path = .ok issues) :
    ∃ st1, checkOne ops lvl check st path = (st1, none) ∧
      st1.allIssues = st.allIssues ++ issues ∧
      st1.world.stdout = st.world.stdout ∧
      st1.world.fixed = st.world.fixed ∧
      (∀ k ∈ mapKeys st1.fileIssues, k = path ∨ k ∈ mapKeys st.fileIssues) := by
  unfold checkOne
  rw [h]
  by_cases hlen : issues.length > 0
  · simp only [hlen, if_true]
    refine ⟨_, rfl, rfl, ?_, ?_, ?_⟩
    · simp only
      split_ifs <;> simp [Logf_stdout]
    · simp only
      split_ifs <;> simp [Logf_fixed]
    · exact mapKeys_mapSet _ _ _
  · have hnil : issues = [] := by
      cases issues with
      | nil => rfl
      | cons i rest => simp at hlen
    simp only [hlen, if_false]
    refine ⟨_, rfl, by simp [hnil], ?_, ?_, fun k hk => Or.inr hk⟩
    · simp only
      split_ifs <;> simp [Logf_stdout]
    · simp only
      split_ifs <;> simp [Logf_fixed]

/-- The check loop on files whose checks all succeed. -/
theorem checkFiles_ok (ops : Ops) (lvl : Level) (check : Bool) (files : List String) :
    ∀ (st : CheckState), (∀ f ∈ files, ∃ issues, ops.CheckFile f = .ok issues) →
      ∃ st1, checkFiles ops lvl check st files = (st1, none) ∧
        st1.allIssues = st.allIssues ++ (files.map (issuesOf ops)).flatten ∧
        st1.world.stdout = st.world.stdout ∧
        st1.world.fixed = st.world.fixed ∧
        (∀ k ∈ mapKeys st1.fileIssues, k ∈ files ∨ k ∈ mapKeys st.fileIssues) := by
  induction files with
  | nil =>
    intro st _
    exact ⟨st, rfl, by simp, rfl, rfl, fun k hk => Or.inr hk⟩
  | cons f rest ih =>
    intro st hall
    obtain ⟨issues, hf⟩ := hall f (List.mem_cons_self _ _)
    obtain ⟨st1, h1, ha1, ho1, hx1, hk1⟩ := checkOne_ok ops lvl check st f issues hf
    obtain ⟨st2, h2, ha2, ho2, hx2, hk2⟩ :=
      ih st1 (fun g hg => hall g (List.mem_cons_of_mem _ hg))
    refine ⟨st2, by simp only [checkFiles, h1, h2], ?_, ho2.trans ho1, hx2.trans hx1, ?_⟩
    · rw [ha2, ha1]
      simp [issuesOf, hf, List.append_assoc]
    · intro k hk
      rcases hk2 k hk with h | h
      · exact Or.inl (List.mem_cons_of_mem _ h)
      · rcases hk1 k h with h3 | h3
        · exact Or.inl (h3 ▸ List.mem_cons_self _ _)
        · exact Or.inr h3

/-- The fix loop on files whose fixes all succeed. -/
theorem applyFixes_ok (ops : Ops) (lvl : Level) (l : List String) :
    ∀ (w : World), (∀ f ∈ l, ops.Apply f = none) →
      ∃ w1, applyFixes ops lvl w l = (w1, none) ∧ w1.fixed = w.fixed ++ l := by
  induction l with
  | nil => intro w _; exact ⟨w, rfl, by simp⟩
  | cons f rest ih =>
    intro w hall
    have hf := hall f (List.mem_cons_self _ _)
    simp only [applyFixes, hf]
    obtain ⟨w1, h1, h2⟩ := ih
      (if lvl.ge .Verbose = true then
        Logf { w with fixed := w.fixed ++ [f] } lvl .Verbose ("write: applied to " ++ f ++ "\n")
      else { w with fixed := w.fixed ++ [f] })
      (fun g hg => hall g (List.mem_cons_of_mem _ hg))
    refine ⟨w1, h1, ?_⟩
    rw [h2]
    split_ifs <;> simp [Logf_fixed]

theorem foldl_Logf_stdout (lvl : Level) (fmt : String → String) (l : List String) :
    ∀ (w : World), (l.foldl (fun acc p => Logf acc lvl .Verbose (fmt p)) w).stdout = w.stdout := by
  induction l with
  | nil => intro w; rfl
  | cons p rest ih =>
    intro w
    rw [List.foldl_cons, ih, Logf_stdout]

theorem logScanned_stdout (R : MapRange) (lvl : Level) (w : World) (files : List String)
    (skipped : GoMap String) : (logScanned R lvl w files skipped).stdout = w.stdout := by
  unfold logScanned
  simp only
  rw [foldl_Logf_stdout lvl (fun p => "scanner: accepted " ++ p ++ "\n"),
    foldl_Logf_stdout lvl (fun p => "scanner: rejected " ++ p ++ " (reason: " ++
      (mapGet skipped p).getD "" ++ ")\n")]
  split_ifs <;> exact Logf_stdout _ _ _ _

/-- The world in which the check loop of `run` starts has the standard output `run` was
given. -/
theorem run_prelude_stdout (ops : Ops) (lvl : Level) (check : Bool) (paths files : List String)
    (skipped : GoMap String) (w : World) :
    (if lvl.ge .Verbose = true then
      logScanned ops.range lvl
        (if lvl.ge .Verbose = true then
          Logf w lvl .Verbose ("Configuration: check=" ++ fmtBool check ++ " paths=" ++
            fmtStrings paths ++ "\n")
        else w) files skipped
    else
      (if lvl.ge .Verbose = true then
        Logf w lvl .Verbose ("Configuration: check=" ++ fmtBool check ++ " paths=" ++
          fmtStrings paths ++ "\n")
      else w)).stdout = w.stdout := by
  split_ifs
  · rw [logScanned_stdout, Logf_stdout]
  · rfl

theorem flatten_issues_ne_nil (ops : Ops) (files : List String)
    (hcheck : ∀ f ∈ files, ∃ issues, ops.CheckFile f = .ok issues) :
    (files.map (issuesOf ops)).flatten.length > 0 ↔
      ∃ f ∈ files, ∃ issues, ops.CheckFile f = .ok issues ∧ issues ≠ [] := by
  rw [gt_iff_lt, List.length_pos]
  constructor
  · intro h
    by_contra hno
    apply h
    rw [List.flatten_eq_nil_iff]
    intro l hl
    obtain ⟨f, hf, rfl⟩ := List.mem_map.mp hl
    obtain ⟨issues, hi⟩ := hcheck f hf
    by_contra hne
    apply hno
    refine ⟨f, hf, issues, hi, ?_⟩
    simpa [issuesOf, hi] using hne
  · rintro ⟨f, hf, issues, hi, hne⟩ h
    rw [List.flatten_eq_nil_iff] at h
    have := h (issuesOf ops f) (List.mem_map.mpr ⟨f, hf, rfl⟩)
    simp only [issuesOf, hi] at this
    exact hne this

/-! ## C8 and C10: what `run` returns -/

/-- C8: when the scan, every rule check and every fix succeed, `run` with check = true returns
no error and hadIssues = true exactly when some accepted file has an issue, at every level,
provided the report reaches standard output; `run` with check = false returns no error and
hadIssues = false whatever was found; and with --write the process exits non-zero only if
`run` returned an error. -/
theorem C8_exit_contract (ops : Ops) (lvl : Level) (doWrite : Bool) (paths files : List String)
    (skipped : GoMap String) (w : World)
    (hscan : ops.Scan paths = .ok (files, skipped))
    (hcheck : ∀ f ∈ files, ∃ issues, ops.CheckFile f = .ok issues)
    (hfix : ∀ f ∈ files, ops.Apply f = none) :
    (w.stdout.neverFails →
      (run ops lvl true doWrite paths w).err = none ∧
      ((run ops lvl true doWrite paths w).hadIssues = true ↔
        ∃ f ∈ files, ∃ issues, ops.CheckFile f = .ok issues ∧ issues ≠ [])) ∧
    ((run ops lvl false doWrite paths w).err = none ∧
      (run ops lvl false doWrite paths w).hadIssues = false) ∧
    (∀ (o : Ops) (flags : Flags) (args : List String) (w0 : World),
      flags.writeFlag = true → flags.checkFlag = false →
      (Execute o flags args w0).2 ≠ 0 →
      (run o (verbosityLevel flags) false true args w0).err ≠ none) := by
  refine ⟨?_, ?_, ?_⟩
  · intro hout
    unfold run
    simp only [hscan]
    by_cases hfiles : files.length = 0
    · have hnil : files = [] := List.length_eq_zero.mp hfiles
      subst hnil
      simp only [List.length_nil, if_true]
      split_ifs <;> simp
    · simp only [hfiles, if_false]
      obtain ⟨st1, h1, ha, ho, _, _⟩ := checkFiles_ok ops lvl true files
        ⟨_, [], []⟩ hcheck
      rw [h1]
      simp only [if_true]
      have hso : st1.world.stdout.neverFails := by
        rw [ho]
        simp only
        rw [run_prelude_stdout]
        exact hout
      have hall : st1.allIssues = (files.map (issuesOf ops)).flatten := by
        rw [ha]
        simp
      have hiff := flatten_issues_ne_nil ops files hcheck
      cases hge : lvl.ge .Normal with
      | true =>
        simp only [if_true, Write, writeCompact_neverFails _ _ _ _ hso, hall,
          decide_eq_true_eq, true_and]
        exact hiff
      | false =>
        simp only [Bool.false_eq_true, if_false, hall, decide_eq_true_eq, true_and]
        exact hiff
  · unfold run
    simp only [hscan]
    by_cases hfiles : files.length = 0
    · simp only [hfiles, if_true]
      split_ifs <;> simp
    · simp only [hfiles, if_false]
      obtain ⟨st1, h1, _, _, _, hk⟩ := checkFiles_ok ops lvl false files
        ⟨_, [], []⟩ hcheck
      rw [h1]
      simp only [Bool.false_eq_true, if_false]
      have hkeys : ∀ f ∈ ops.range.order (mapKeys st1.fileIssues), ops.Apply f = none := by
        intro f hf
        have hf2 := (ops.range.perm _).subset hf
        rcases hk f hf2 with h | h
        · exact hfix f h
        · simp [mapKeys] at h
      obtain ⟨w4, h4, _⟩ := applyFixes_ok ops lvl _ st1.world hkeys
      rw [h4]
      exact ⟨rfl, rfl⟩
  · intro o flags args w0 hwrite hcheckFlag hexit
    unfold Execute runE at hexit
    simp only [hwrite, hcheckFlag, Bool.false_and, Bool.false_eq_true, if_false,
      Bool.not_false, Bool.not_true, Bool.and_false] at hexit
    by_cases hargs : args.length = 0
    · simp [hargs] at hexit
    · simp only [hargs, if_false] at hexit
      intro herr
      rw [herr] at hexit
      simp at hexit

/-- C10: when the scan accepts no file, `run` with check = true at normal verbosity calls
neither the rule check nor the fix, returns hadIssues = false and no error, and what reaches
standard output is the line `No text files found.` followed by the summary line
`0 file(s) scanned, 0 issue(s).`. -/
theorem C10_no_text_files (ops : Ops) (doWrite : Bool) (paths : List String)
    (skipped : GoMap String) (w : World) (hscan : ops.Scan paths = .ok ([], skipped)) :
    (run ops .Normal true doWrite paths w).hadIssues = false ∧
    (run ops .Normal true doWrite paths w).err = none ∧
    (run ops .Normal true doWrite paths w).world.checked = w.checked ∧
    (run ops .Normal true doWrite paths w).world.fixed = w.fixed ∧
    (w.stdout.neverFails →
      (run ops .Normal true doWrite paths w).world.stdout.written =
        w.stdout.written ++ "No text files found.\n" ++ "0 file(s) scanned, 0 issue(s).\n") := by
  have hrun : run ops .Normal true doWrite paths w =
      ⟨{ w with stdout := (Write ops.sorter (w.stdout.Fprint "No text files found.\n").1
          FormatCompact [] 0 []).1 }, false, none⟩ := by
    simp [run, hscan, Level.ge, Level.rank]
  rw [hrun]
  refine ⟨rfl, rfl, rfl, rfl, ?_⟩
  intro hw
  have hw1 : Writer.neverFails
      { w.stdout with written := w.stdout.written ++ "No text files found.\n" } := hw
  simp only [Write, Fprint_neverFails _ _ hw, writeCompact_neverFails _ _ _ _ hw1, sort_nil,
    List.map_nil, joinLines, String.append_empty]
  rfl

/-- C8 on the file of `TestRun_Silent_NoStdout` (content `x`, two spaces, newline) at the
silent level: check mode reports issues, write mode does not. -/
theorem C8_exit_contract_witness :
    (run (exampleOps (singleFileFS "bad.txt" [0x78, 0x20, 0x20, 0x0A]) exampleCheck)
      .Silent true false ["bad.txt"] emptyWorld).hadIssues = true ∧
    (run (exampleOps (singleFileFS "bad.txt" [0x78, 0x20, 0x20, 0x0A]) exampleCheck)
      .Silent false true ["bad.txt"] emptyWorld).hadIssues = false :=
  have hcheck : ∀ f ∈ ["bad.txt"], ∃ issues,
      (exampleOps (singleFileFS "bad.txt" [0x78, 0x20, 0x20, 0x0A]) exampleCheck).CheckFile f =
        .ok issues := by
    intro f hf
    rw [List.mem_singleton.mp hf]
    exact ⟨_, rfl⟩
  ⟨((C8_exit_contract (exampleOps (singleFileFS "bad.txt" [0x78, 0x20, 0x20, 0x0A]) exampleCheck)
      .Silent false ["bad.txt"] ["bad.txt"] [] emptyWorld rfl hcheck (fun _ _ => rfl)).1
      (fun _ _ => rfl)).2.mpr
      ⟨"bad.txt", List.mem_singleton.mpr rfl, _, rfl, List.cons_ne_nil _ _⟩,
    (C8_exit_contract (exampleOps (singleFileFS "bad.txt" [0x78, 0x20, 0x20, 0x0A]) exampleCheck)
      .Silent true ["bad.txt"] ["bad.txt"] [] emptyWorld rfl hcheck (fun _ _ => rfl)).2.1.2⟩

/-- C10 on the file of `TestRun_ZeroTextFiles_Normal_NoTextFilesFound`, a single 0x00 byte. -/
theorem C10_no_text_files_witness :
    Scan (singleFileFS "x.bin" [0x00]) ["x.bin"] = .ok ([], [("x.bin", "null byte")]) ∧
    (run (exampleOps (singleFileFS "x.bin" [0x00]) exampleCheck) .Normal true false ["x.bin"]
      emptyWorld).world.stdout.written =
      "No text files found.\n0 file(s) scanned, 0 issue(s).\n" :=
  ⟨rfl, ((C10_no_text_files (exampleOps (singleFileFS "x.bin" [0x00]) exampleCheck) false
    ["x.bin"] [("x.bin", "null byte")] emptyWorld rfl).2.2.2.2 (fun _ _ => rfl)).trans
    (by decide)⟩

/-! ## The fix loop and the listing of the written files -/

theorem mem_mapKeys_mapSet {V : Type} (m : GoMap V) (k : String) (v : V) (x : String) :
    x ∈ mapKeys (mapSet m k v) ↔ x = k ∨ x ∈ mapKeys m := by
  constructor
  · exact mapKeys_mapSet m k v x
  · induction m with
    | nil =>
      intro h
      simpa [mapKeys, mapSet] using h
    | cons kv rest ih =>
      obtain ⟨k1, v1⟩ := kv
      intro h
      by_cases hk : k1 = k
      · simp only [mapSet, hk, if_true, mapKeys, List.map_cons, List.mem_cons] at h ⊢
        rcases h with h | h | h
        · exact Or.inl h
        · exact Or.inl h
        · exact Or.inr h
      · simp only [mapSet, hk, if_false, mapKeys, List.map_cons, List.mem_cons] at h ⊢
        rcases h with h | h | h
        · exact Or.inr (ih (Or.inl h))
        · exact Or.inl h
        · exact Or.inr (ih (Or.inr h))

/-- Assigning to a map keeps its keys distinct. -/
theorem nodup_mapKeys_mapSet {V : Type} (m : GoMap V) (k : String) (v : V)
    (h : (mapKeys m).Nodup) : (mapKeys (mapSet m k v)).Nodup := by
  induction m with
  | nil => simp [mapKeys, mapSet]
  | cons kv rest ih =>
    obtain ⟨k1, v1⟩ := kv
    have h2 : k1 ∉ mapKeys rest ∧ (mapKeys rest).Nodup := by
      simpa [mapKeys] using h
    by_cases hk : k1 = k
    · simpa [mapSet, hk, mapKeys] using h
    · have hrest := ih h2.2
      have hnot : k1 ∉ mapKeys (mapSet rest k v) := by
        intro hmem
        rcases (mem_mapKeys_mapSet rest k v k1).mp hmem with h3 | h3
        · exact hk h3
        · exact h2.1 h3
      simp only [mapSet, hk, if_false]
      exact List.nodup_cons.mpr ⟨hnot, hrest⟩

/-- The map `fileIssues` after one iteration of the check loop on a file whose check
succeeds. -/
theorem checkOne_fileIssues (ops : Ops) (lvl : Level) (check : Bool) (st : CheckState)
    (path : String) (issues : List Issue) (h : ops.CheckFile path = .ok issues) :
    (checkOne ops lvl check st path).1.fileIssues =
      if issues.length > 0 then mapSet st.fileIssues path issues else st.fileIssues := by
  unfold checkOne
  rw [h]
  by_cases hlen : issues.length > 0
  · simp only [hlen, if_true]
  · simp only [hlen, if_false]

/-- The keys of `fileIssues` after the check loop: distinct, and those it had plus the files
with at least one issue. -/
theorem checkFiles_keys (ops : Ops) (lvl : Level) (check : Bool) (files : List String) :
    ∀ (st : CheckState), (∀ f ∈ files, ∃ issues, ops.CheckFile f = .ok issues) →
      (mapKeys st.fileIssues).Nodup →
      (mapKeys (checkFiles ops lvl check st files).1.fileIssues).Nodup ∧
      ∀ k, k ∈ mapKeys (checkFiles ops lvl check st files).1.fileIssues ↔
        k ∈ mapKeys st.fileIssues ∨ (k ∈ files ∧ (issuesOf ops k).isEmpty = false) := by
  induction files with
  | nil =>
    intro st _ hnd
    exact ⟨hnd, fun k => by simp [checkFiles]⟩
  | cons f rest ih =>
    intro st hall hnd
    obtain ⟨issues, hf⟩ := hall f (List.mem_cons_self _ _)
    obtain ⟨st1, h1, _⟩ := checkOne_ok ops lvl check st f issues hf
    have hmap := checkOne_fileIssues ops lvl check st f issues hf
    rw [h1] at hmap
    simp only at hmap
    have hnd1 : (mapKeys st1.fileIssues).Nodup := by
      rw [hmap]
      split_ifs
      · exact nodup_mapKeys_mapSet _ _ _ hnd
      · exact hnd
    obtain ⟨hnd2, hkeys2⟩ := ih st1 (fun g hg => hall g (List.mem_cons_of_mem _ hg)) hnd1
    have hstep : checkFiles ops lvl check st (f :: rest) = checkFiles ops lvl check st1 rest := by
      simp only [checkFiles, h1]
    rw [hstep]
    refine ⟨hnd2, ?_⟩
    intro k
    rw [hkeys2 k, hmap]
    have hempty : (issuesOf ops f).isEmpty = false ↔ issues.length > 0 := by
      simp only [issuesOf, hf]
      cases issues <;> simp
    by_cases hlen : issues.length > 0
    · simp only [hlen, if_true, mem_mapKeys_mapSet, List.mem_cons]
      constructor
      · rintro ((h | h) | ⟨h, h2⟩)
        · exact Or.inr ⟨Or.inl h, h ▸ hempty.mpr hlen⟩
        · exact Or.inl h
        · exact Or.inr ⟨Or.inr h, h2⟩
      · rintro (h | ⟨h | h, h2⟩)
        · exact Or.inl (Or.inr h)
        · exact Or.inl (Or.inl h)
        · exact Or.inr ⟨h, h2⟩
    · simp only [hlen, if_false, List.mem_cons]
      constructor
      · rintro (h | ⟨h, h2⟩)
        · exact Or.inl h
        · exact Or.inr ⟨Or.inr h, h2⟩
      · rintro (h | ⟨h | h, h2⟩)
        · exact Or.inl h
        · exact absurd (hempty.mp (h ▸ h2)) hlen
        · exact Or.inr ⟨h, h2⟩

/-- The fix loop does not write to standard output. -/
theorem applyFixes_stdout (ops : Ops) (lvl : Level) (l : List String) :
    ∀ (w : World), (applyFixes ops lvl w l).1.stdout = w.stdout := by
  induction l with
  | nil => intro w; rfl
  | cons f rest ih =>
    intro w
    simp only [applyFixes]
    cases ops.Apply f with
    | some e => rfl
    | none =>
      simp only
      rw [ih]
      split_ifs
      · rw [Logf_stdout]
      · rfl

/-- The check loop on files whose checks all succeed, with the keys of `fileIssues`. -/
theorem checkFiles_full (ops : Ops) (lvl : Level) (check : Bool) (files : List String)
    (st : CheckState) (hcheck : ∀ f ∈ files, ∃ issues, ops.CheckFile f = .ok issues)
    (hnd : (mapKeys st.fileIssues).Nodup) :
    ∃ st1, checkFiles ops lvl check st files = (st1, none) ∧
      st1.world.stdout = st.world.stdout ∧
      st1.world.fixed = st.world.fixed ∧
      (mapKeys st1.fileIssues).Nodup ∧
      (∀ k, k ∈ mapKeys st1.fileIssues ↔
        k ∈ mapKeys st.fileIssues ∨ (k ∈ files ∧ (issuesOf ops k).isEmpty = false)) := by
  obtain ⟨st1, h1, _, ho, hx, _⟩ := checkFiles_ok ops lvl check files st hcheck
  have hkeys := checkFiles_keys ops lvl check files st hcheck hnd
  rw [h1] at hkeys
  exact ⟨st1, h1, ho, hx, hkeys.1, hkeys.2⟩

theorem sortStrings_perm (l : List String) : (sortStrings l).Perm l :=
  List.perm_insertionSort _ l

theorem strLess_eq_false_iff (a b : String) : strLess b a = false ↔ a ≤ b := by
  rw [← not_lt, ← strLess_iff]
  simp

/-- The result of `sort.Strings` is in ascending order. -/
theorem sortStrings_sorted (l : List String) :
    (sortStrings l).Pairwise (fun a b => a ≤ b) := by
  haveI : IsTotal String (fun a b => strLess b a = false) :=
    ⟨fun a b => by
      simp only [strLess_eq_false_iff]
      exact le_total a b⟩
  haveI : IsTrans String (fun a b => strLess b a = false) :=
    ⟨fun a b c hab hbc => by
      rw [strLess_eq_false_iff] at hab hbc ⊢
      exact le_trans hab hbc⟩
  have h := List.sorted_insertionSort (fun a b : String => strLess b a = false) l
  exact List.Pairwise.imp (fun {a b} hab => (strLess_eq_false_iff a b).mp hab) h

theorem foldl_Fprint_neverFails (l : List String) :
    ∀ (so : Writer), so.neverFails →
      l.foldl (fun acc p => (acc.Fprint (p ++ "\n")).1) so =
        { so with written := so.written ++ joinLines (l.map (fun p => p ++ "\n")) } := by
  induction l with
  | nil =>
    intro so _
    simp [joinLines]
  | cons p rest ih =>
    intro so hso
    have hso1 : Writer.neverFails { so with written := so.written ++ (p ++ "\n") } := hso
    simp only [List.foldl_cons, Fprint_neverFails so _ hso, ih _ hso1, List.map_cons, joinLines,
      String.append_assoc]

/-- The listing of the written files on a writer that takes every write. -/
theorem printWrote_neverFails (R : MapRange) (so : Writer) (fileIssues : GoMap (List Issue))
    (hso : so.neverFails) :
    (printWrote R so fileIssues).written =
      so.written ++ ("Wrote " ++ toString (sortStrings (R.order (mapKeys fileIssues))).length ++
        " file(s):\n" ++
        joinLines ((sortStrings (R.order (mapKeys fileIssues))).map (fun p => p ++ "\n"))) := by
  have hso1 : Writer.neverFails
      { so with written := so.written ++
        ("Wrote " ++ toString (sortStrings (R.order (mapKeys fileIssues))).length ++
          " file(s):\n") } := hso
  unfold printWrote
  simp only [Fprint_neverFails so _ hso]
  rw [foldl_Fprint_neverFails _ _ hso1]
  simp only [String.append_assoc]

theorem mem_filesWithIssues (ops : Ops) (files : List String) (f : String) :
    f ∈ filesWithIssues ops files ↔ f ∈ files ∧ (issuesOf ops f).isEmpty = false := by
  simp [filesWithIssues, List.mem_dedup, List.mem_filter]

/-- A path the classifier accepts never becomes a key of the rejected map. -/
theorem foldl_scanFile_accepted_not_skipped (fs : FS) (p : String)
    (hacc : (isTextFileWithReason fs p).1 = true) (l : List String) :
    ∀ (st : ScanState), mapGet st.skipped p = none →
      mapGet (l.foldl (scanFile fs) st).skipped p = none := by
  induction l with
  | nil => intro st h; exact h
  | cons q rest ih =>
    intro st h
    rw [List.foldl_cons]
    apply ih
    by_cases hs : fs.Abs q ∈ st.seen
    · rw [scanFile_of_seen fs st q hs]
      exact h
    · rw [scanFile_of_new fs st q hs]
      split_ifs with h1 h2
      · exact h
      · have hqp : q ≠ p := by
          intro hqp
          rw [hqp] at h1
          exact h1 hacc
        simp only [mapGet_mapSet_ne _ _ _ _ hqp, h]
      · exact h

/-- No accepted path of `Scan` is a key of its rejected map. -/
theorem Scan_accepted_not_rejected (fs : FS) (paths out : List String)
    (skipped : GoMap String) (h : Scan fs paths = .ok (out, skipped)) :
    ∀ f ∈ out, mapGet skipped f = none := by
  intro f hf
  obtain ⟨hout, hskip⟩ := Scan_ok fs paths out skipped h
  rw [hout] at hf
  have hacc : (isTextFileWithReason fs f).1 = true := by
    rcases foldl_scanFile_out fs _ _ _ hf with h1 | h1
    · simp at h1
    · exact h1
  rw [hskip]
  exact foldl_scanFile_accepted_not_skipped fs f hacc _ _ rfl

theorem foldl_Logf_fixed (lvl : Level) (fmt : String → String) (l : List String) :
    ∀ (w : World), (l.foldl (fun acc p => Logf acc lvl .Verbose (fmt p)) w).fixed = w.fixed := by
  induction l with
  | nil => intro w; rfl
  | cons p rest ih =>
    intro w
    rw [List.foldl_cons, ih, Logf_fixed]

theorem logScanned_fixed (R : MapRange) (lvl : Level) (w : World) (files : List String)
    (skipped : GoMap String) : (logScanned R lvl w files skipped).fixed = w.fixed := by
  unfold logScanned
  simp only
  rw [foldl_Logf_fixed lvl (fun p => "scanner: accepted " ++ p ++ "\n"),
    foldl_Logf_fixed lvl (fun p => "scanner: rejected " ++ p ++ " (reason: " ++
      (mapGet skipped p).getD "" ++ ")\n")]
  split_ifs <;> exact Logf_fixed _ _ _ _

/-- The world in which the check loop of `run` starts has the fix calls `run` was given. -/
theorem run_prelude_fixed (ops : Ops) (lvl : Level) (check : Bool) (paths files : List String)
    (skipped : GoMap String) (w : World) :
    (if lvl.ge .Verbose = true then
      logScanned ops.range lvl
        (if lvl.ge .Verbose = true then
          Logf w lvl .Verbose ("Configuration: check=" ++ fmtBool check ++ " paths=" ++
            fmtStrings paths ++ "\n")
        else w) files skipped
    else
      (if lvl.ge .Verbose = true then
        Logf w lvl .Verbose ("Configuration: check=" ++ fmtBool check ++ " paths=" ++
          fmtStrings paths ++ "\n")
      else w)).fixed = w.fixed := by
  split_ifs
  · rw [logScanned_fixed, Logf_fixed]
  · rfl

/-- What `run` with check = false does on a non-empty accepted list when no operation fails:
the keys of `fileIssues` are the files with issues, the fix is applied to them in the order of
the range, and standard output gets the listing or nothing. -/
theorem run_fix (ops : Ops) (lvl : Level) (doWrite : Bool) (paths files : List String)
    (skipped : GoMap String) (w : World)
    (hscan : ops.Scan paths = .ok (files, skipped))
    (hcheck : ∀ f ∈ files, ∃ issues, ops.CheckFile f = .ok issues)
    (hfix : ∀ f ∈ files, ops.Apply f = none)
    (hne : ¬ files.length = 0) :
    ∃ fileIssues : GoMap (List Issue),
      (mapKeys fileIssues).Nodup ∧
      (∀ k, k ∈ mapKeys fileIssues ↔ k ∈ files ∧ (issuesOf ops k).isEmpty = false) ∧
      (run ops lvl false doWrite paths w).err = none ∧
      (run ops lvl false doWrite paths w).world.fixed =
        w.fixed ++ ops.range.order (mapKeys fileIssues) ∧
      (run ops lvl false doWrite paths w).world.stdout =
        if (lvl.ge .Normal && decide (fileIssues.length > 0)) = true then
          printWrote ops.range w.stdout fileIssues
        else w.stdout := by
  obtain ⟨st1, h1, ho, hx, hnd, hkeys⟩ := checkFiles_full ops lvl false files
    ⟨(if lvl.ge .Verbose = true then
      logScanned ops.range lvl
        (if lvl.ge .Verbose = true then
          Logf w lvl .Verbose ("Configuration: check=" ++ fmtBool false ++ " paths=" ++
            fmtStrings paths ++ "\n")
        else w) files skipped
    else
      (if lvl.ge .Verbose = true then
        Logf w lvl .Verbose ("Configuration: check=" ++ fmtBool false ++ " paths=" ++
          fmtStrings paths ++ "\n")
      else w)), [], []⟩ hcheck (by simp [mapKeys])
  simp only at ho hx
  rw [run_prelude_stdout] at ho
  rw [run_prelude_fixed] at hx
  have hkeys2 : ∀ k, k ∈ mapKeys st1.fileIssues ↔
      k ∈ files ∧ (issuesOf ops k).isEmpty = false := by
    intro k
    rw [hkeys k]
    simp [mapKeys]
  have hall : ∀ f ∈ ops.range.order (mapKeys st1.fileIssues), ops.Apply f = none := by
    intro f hf
    exact hfix f ((hkeys2 f).mp ((ops.range.perm _).subset hf)).1
  obtain ⟨w4, h4, hw4⟩ := applyFixes_ok ops lvl _ st1.world hall
  have hs4 := applyFixes_stdout ops lvl (ops.range.order (mapKeys st1.fileIssues)) st1.world
  rw [h4] at hs4
  simp only at hs4
  refine ⟨st1.fileIssues, hnd, hkeys2, ?_, ?_, ?_⟩
  · unfold run
    simp only [hscan, hne, if_false, h1, h4, Bool.false_eq_true]
  · unfold run
    simp only [hscan, hne, if_false, h1, h4, Bool.false_eq_true]
    rw [← hx, ← hw4]
    split_ifs <;> simp [Logf_fixed]
  · unfold run
    simp only [hscan, hne, if_false, h1, h4, Bool.false_eq_true]
    rw [← ho, ← hs4]
    split_ifs <;> simp [Logf_stdout]

theorem issuesOf_nonempty_iff (ops : Ops) (f : String)
    (hcheck : ∃ issues, ops.CheckFile f = .ok issues) :
    (issuesOf ops f).isEmpty = false ↔ ∃ issues, ops.CheckFile f = .ok issues ∧ issues ≠ [] := by
  obtain ⟨issues, hi⟩ := hcheck
  simp only [issuesOf, hi]
  constructor
  · intro h
    refine ⟨issues, rfl, ?_⟩
    intro hnil
    rw [hnil] at h
    exact Bool.noConfusion h
  · rintro ⟨issues2, h2, hne⟩
    have : issues2 = issues := by
      injection h2 with h3
      exact h3.symm
    subst this
    cases issues2 with
    | nil => exact absurd rfl hne
    | cons i rest => rfl

/-! ## C11: the fix mode -/

/-- C11: when the scan, every rule check and every fix succeed, `run` with check = false
returns no error and calls `fix.Apply` on exactly the accepted files with at least one issue,
once each (in the order of the map range), so on no file without issues and, with the scanner
of this repository, on no rejected file; from normal verbosity up, standard output then gets
`Wrote K file(s):` with K the number of those files, followed by their paths in ascending
order one per line, and no such listing when K = 0. -/
theorem C11_fix_applied_and_listed (ops : Ops) (lvl : Level) (doWrite : Bool)
    (paths files : List String) (skipped : GoMap String) (w : World)
    (hscan : ops.Scan paths = .ok (files, skipped))
    (hcheck : ∀ f ∈ files, ∃ issues, ops.CheckFile f = .ok issues)
    (hfix : ∀ f ∈ files, ops.Apply f = none) :
    ∃ applied listed : List String,
      applied.Perm (filesWithIssues ops files) ∧
      (filesWithIssues ops files).Nodup ∧
      (∀ f, f ∈ filesWithIssues ops files ↔
        f ∈ files ∧ ∃ issues, ops.CheckFile f = .ok issues ∧ issues ≠ []) ∧
      (run ops lvl false doWrite paths w).err = none ∧
      (run ops lvl false doWrite paths w).world.fixed = w.fixed ++ applied ∧
      (∀ fs, ops.Scan = Scan fs → ∀ f ∈ applied, mapGet skipped f = none) ∧
      listed.Perm (filesWithIssues ops files) ∧
      listed.Pairwise (fun a b => a ≤ b) ∧
      (lvl.ge .Normal = true → w.stdout.neverFails →
        (run ops lvl false doWrite paths w).world.stdout.written =
          w.stdout.written ++
            (if files.length = 0 then "No text files found.\n"
             else if (filesWithIssues ops files).length = 0 then ""
             else "Wrote " ++ toString (filesWithIssues ops files).length ++ " file(s):\n" ++
               joinLines (listed.map (fun p => p ++ "\n")))) := by
  have hmem : ∀ f, f ∈ filesWithIssues ops files ↔
      f ∈ files ∧ ∃ issues, ops.CheckFile f = .ok issues ∧ issues ≠ [] := by
    intro f
    rw [mem_filesWithIssues]
    constructor
    · rintro ⟨hf, he⟩
      exact ⟨hf, (issuesOf_nonempty_iff ops f (hcheck f hf)).mp he⟩
    · rintro ⟨hf, he⟩
      exact ⟨hf, (issuesOf_nonempty_iff ops f (hcheck f hf)).mpr he⟩
  have hnodup : (filesWithIssues ops files).Nodup := List.nodup_dedup _
  have hrej : ∀ applied : List String, applied.Perm (filesWithIssues ops files) →
      ∀ fs, ops.Scan = Scan fs → ∀ f ∈ applied, mapGet skipped f = none := by
    intro applied hperm fs hfs f hf
    rw [hfs] at hscan
    exact Scan_accepted_not_rejected fs paths files skipped hscan f
      ((hmem f).mp (hperm.subset hf)).1
  by_cases hne : files.length = 0
  · have hnil : files = [] := List.length_eq_zero.mp hne
    subst hnil
    have hK : filesWithIssues ops [] = [] := rfl
    refine ⟨[], [], by rw [hK], hnodup, hmem, ?_, ?_, hrej [] (by rw [hK]), by rw [hK],
      List.Pairwise.nil, ?_⟩
    · cases lvl <;> simp [run, hscan, Level.ge, Level.rank]
    · cases lvl <;> simp [run, hscan, Level.ge, Level.rank, logScanned_fixed, Logf_fixed]
    · intro hge hw
      cases lvl with
      | Silent => simp [Level.ge, Level.rank] at hge
      | Normal => simp [run, hscan, Level.ge, Level.rank, Fprint_neverFails _ _ hw]
      | Verbose =>
        simp [run, hscan, Level.ge, Level.rank, logScanned_stdout, Logf_stdout,
          Fprint_neverFails _ _ hw]
  · obtain ⟨fileIssues, hnd, hkeys, herr, hfixed, hstdout⟩ :=
      run_fix ops lvl doWrite paths files skipped w hscan hcheck hfix hne
    have hperm : (ops.range.order (mapKeys fileIssues)).Perm (filesWithIssues ops files) := by
      apply (List.perm_ext_iff_of_nodup ((ops.range.perm _).nodup_iff.mpr hnd) hnodup).mpr
      intro a
      rw [(ops.range.perm _).mem_iff, hkeys a, mem_filesWithIssues]
    have hlisted := (sortStrings_perm (ops.range.order (mapKeys fileIssues))).trans hperm
    have hlen : fileIssues.length = (filesWithIssues ops files).length := by
      rw [← hperm.length_eq, (ops.range.perm _).length_eq]
      simp [mapKeys]
    refine ⟨ops.range.order (mapKeys fileIssues),
      sortStrings (ops.range.order (mapKeys fileIssues)), hperm, hnodup, hmem, herr, hfixed,
      hrej _ hperm, hlisted, sortStrings_sorted _, ?_⟩
    intro hge hw
    rw [hstdout]
    simp only [hne, if_false, hge, Bool.true_and, decide_eq_true_eq, hlen]
    by_cases hK : (filesWithIssues ops files).length = 0
    · simp [hK]
    · have hpos : (filesWithIssues ops files).length > 0 := Nat.pos_of_ne_zero hK
      simp only [hpos, if_true, hK, if_false, printWrote_neverFails _ _ _ hw,
        hlisted.length_eq]

/-- C11 on `b.txt` and `a.txt` (trailing spaces), the clean `ok.txt` and the binary `bin.bin`,
at normal verbosity: the fix is applied to `b.txt` and `a.txt` only, and the listing names
`a.txt` before `b.txt`. -/
theorem C11_fix_applied_and_listed_witness :
    Scan fixFS ["b.txt", "ok.txt", "a.txt", "bin.bin"] =
      .ok (["b.txt", "ok.txt", "a.txt"], [("bin.bin", "null byte")]) ∧
    (run (exampleOps fixFS fixCheck) .Normal false true ["b.txt", "ok.txt", "a.txt", "bin.bin"]
      emptyWorld).world.fixed = ["b.txt", "a.txt"] ∧
    (run (exampleOps fixFS fixCheck) .Normal false true ["b.txt", "ok.txt", "a.txt", "bin.bin"]
      emptyWorld).world.stdout.written = "Wrote 2 file(s):\na.txt\nb.txt\n" ∧
    (∃ applied listed : List String,
      applied.Perm (filesWithIssues (exampleOps fixFS fixCheck) ["b.txt", "ok.txt", "a.txt"]) ∧
      (run (exampleOps fixFS fixCheck) .Normal false true
        ["b.txt", "ok.txt", "a.txt", "bin.bin"] emptyWorld).world.fixed =
        emptyWorld.fixed ++ applied ∧
      (∀ f ∈ applied, mapGet [("bin.bin", "null byte")] f = none) ∧
      listed.Perm (filesWithIssues (exampleOps fixFS fixCheck) ["b.txt", "ok.txt", "a.txt"]) ∧
      listed.Pairwise (fun a b => a ≤ b) ∧
      (run (exampleOps fixFS fixCheck) .Normal false true
        ["b.txt", "ok.txt", "a.txt", "bin.bin"] emptyWorld).world.stdout.written =
        emptyWorld.stdout.written ++
          (if ["b.txt", "ok.txt", "a.txt"].length = 0 then "No text files found.\n"
           else if (filesWithIssues (exampleOps fixFS fixCheck)
              ["b.txt", "ok.txt", "a.txt"]).length = 0 then ""
           else "Wrote " ++ toString (filesWithIssues (exampleOps fixFS fixCheck)
              ["b.txt", "ok.txt", "a.txt"]).length ++ " file(s):\n" ++
             joinLines (listed.map (fun p => p ++ "\n")))) := by
  refine ⟨rfl, by decide, by decide, ?_⟩
  obtain ⟨applied, listed, h1, _, _, _, h5, h6, h7, h8, h9⟩ :=
    C11_fix_applied_and_listed (exampleOps fixFS fixCheck) .Normal true
      ["b.txt", "ok.txt", "a.txt", "bin.bin"] ["b.txt", "ok.txt", "a.txt"]
      [("bin.bin", "null byte")] emptyWorld rfl
      (fun f _ => by
        show ∃ issues, fixCheck f = .ok issues
        unfold fixCheck
        split_ifs <;> exact ⟨_, rfl⟩)
      (fun _ _ => rfl)
  exact ⟨applied, listed, h1, h5, h6 fixFS rfl, h7, h8, h9 rfl (fun _ _ => rfl)⟩

end Prosefmt
